import Mathlib

/-!
Verification development for the CAFE gene-family-evolution engine.

The repository provides the implementation of the observation error model
(src/cafe/error_model.cpp) together with a test suite (src/unnamed/part_000)
exercising the birth-death transition kernel, the matrix cache, the pruning
likelihood engine, the Poisson root-size prior and the tree utilities.  The
implementations of those latter components are not part of the source tree
(only their tests and callers are), so they are modelled here from the
specification (spec.md sections 4.2, 4.3, 4.4, 4.7 and section 8), with the
tests used to fix the parameters of each scenario.  Floating point arithmetic
is modelled by exact arithmetic: rational numbers for every computation the
scenarios exercise, real numbers where the specification's formulas involve
the exponential function.
-/

set_option maxRecDepth 12000

namespace CAFE

/-- Sum of a list, written as a left fold the way the C accumulation loops are. -/
def lsum {K : Type} [Add K] [Zero K] (l : List K) : K := l.foldl (· + ·) 0

/-- factK n is the factorial of n as an element of the division ring K,
computed by the running-product loop a C implementation would use. -/
def factK (K : Type) [Field K] (n : ℕ) : K :=
  (List.range n).foldl (fun (acc : K) (t : ℕ) => acc * ((t : K) + 1)) 1

/-- Binomial coefficient C(n,k) as an element of K: the falling-factorial
product divided by k factorial.  For k ≤ n this equals the Nat.choose value
(theorem chooseK_eq_choose below); the birth-death formula only uses it in
that range. -/
def chooseK (K : Type) [Field K] (n k : ℕ) : K :=
  (List.range k).foldl (fun (acc : K) (t : ℕ) => acc * ((n - t : ℕ) : K)) 1 / factK K k

/-- Modelled from the spec (section 4.2): one entry P(i -> j) of the
birth-death transition matrix for branch parameters alpha and beta:
P(i->j) = sum over k ≤ min i j of C(i,k) * C(i+j-k-1, i-1) * alpha^(i-k) *
beta^(j-k) * (1-alpha-beta)^k, with row 0 the absorbing extinction row
(P(0->0) = 1, P(0->j) = 0 for j > 0).  The C implementation computes each
term through the log-binomial cache and one exp; the model uses exact
field arithmetic instead (the implementation file is not in the source
tree, only its tests are). -/
def birthdeath_rate (K : Type) [Field K] (alpha beta : K) (i j : ℕ) : K :=
  if i = 0 then (if j = 0 then 1 else 0)
  else
    lsum ((List.range (min i j + 1)).map (fun k =>
      chooseK K i k * chooseK K (i + j - k - 1) (i - 1)
        * alpha ^ (i - k) * beta ^ (j - k) * (1 - alpha - beta) ^ k))

/-- The (maxsz+1) x (maxsz+1) matrix of birth-death transition rates,
represented as a list of rows. -/
def birthdeath_matrix (K : Type) [Field K] (alpha beta : K) (maxsz : ℕ) :
    List (List K) :=
  (List.range (maxsz + 1)).map (fun i =>
    (List.range (maxsz + 1)).map (fun j => birthdeath_rate K alpha beta i j))

/-- The identity matrix of side n, the spec's edge case for branch length 0. -/
def identity_matrix (K : Type) [Field K] (n : ℕ) : List (List K) :=
  (List.range n).map (fun i => (List.range n).map (fun j => if i = j then (1 : K) else 0))

/-- Entry (i,j) of a matrix held as a list of rows (0 outside the matrix). -/
def entryD {K : Type} [Zero K] (M : List (List K)) (i j : ℕ) : K :=
  (M.getD i []).getD j 0

/-- Row i of a matrix held as a list of rows. -/
def rowD {K : Type} (M : List (List K)) (i : ℕ) : List K := M.getD i []

/-- Modelled from the spec (section 4.2): the birth-death transition matrix
for a branch of length t with birth rate lam and death rate mu.  The death
rate sentinel mu = -1 means mu = lam; t = 0 yields the identity matrix; when
the two rates agree alpha = beta = lam*t/(1+lam*t), otherwise alpha and beta
come from the closed form with E = exp((lam-mu)*t).  (The spec also allows an
implementation to clamp very small positive t to the identity; no scenario
exercises that threshold and it is not modelled.) -/
noncomputable def compute_birthdeath_rates (t lam mu : ℝ) (maxsz : ℕ) : List (List ℝ) :=
  let mu2 := if mu = -1 then lam else mu
  if t = 0 then identity_matrix ℝ (maxsz + 1)
  else if lam = mu2 then
    birthdeath_matrix ℝ (lam * t / (1 + lam * t)) (lam * t / (1 + lam * t)) maxsz
  else
    let E := Real.exp ((lam - mu2) * t)
    birthdeath_matrix ℝ (mu2 * (E - 1) / (lam * E - mu2)) (lam * (E - 1) / (lam * E - mu2)) maxsz

/-- Modelled from the spec (section 4.3) and the tests: the matrix cache is
keyed by the integer truncation of the branch length together with the two
rates, and the matrix stored under a key is computed from that truncated
branch length (the test node_set_birthdeath_matrix2 observes the same entry
value 0.195791 for branch lengths 68.7105 and 68, while the kernel applied
directly to 68.7105 gives 0.19466).  Branch lengths are non-negative, so the
C double-to-int truncation is the floor.  Since the cache holds at most one
matrix per key, a lookup is extensionally this pure function of the key. -/
noncomputable def birthdeath_cache_get_matrix (t lam mu : ℝ) (maxsz : ℕ) : List (List ℝ) :=
  compute_birthdeath_rates ((⌊t⌋ : ℤ) : ℝ) lam mu maxsz

/-- The equal-rates alpha parameter lam*t/(1+lam*t) over the rationals, used
to evaluate the kernel on the concrete scenarios (which all use the mu = -1
sentinel, hence the equal-rates branch). -/
def alphaQ (lam t : ℚ) : ℚ := lam * t / (1 + lam * t)

/-- Rational-arithmetic instance of the cache lookup for the sentinel death
rate: the matrix computed at the truncated branch length with alpha = beta =
lam*floor(t)/(1+lam*floor(t)).  This is the computable counterpart of
birthdeath_cache_get_matrix for mu = -1 (theorem birthdeath_matrix_cast
links the two levels entrywise). -/
def birthdeath_cache_get_matrixQ (t lam : ℚ) (maxsz : ℕ) : List (List ℚ) :=
  birthdeath_matrix ℚ (alphaQ lam ((⌊t⌋ : ℤ) : ℚ)) (alphaQ lam ((⌊t⌋ : ℤ) : ℚ)) maxsz

/-- A gene-family tree for the pruning engine: leaves carry the branch length
to the parent and the observed family size, internal nodes carry the branch
length and two children.  The root's branch length is unused. -/
inductive CafeTree where
  | leaf (bl : ℚ) (count : ℕ)
  | node (bl : ℚ) (l r : CafeTree)

/-- Branch length of the root node of a subtree. -/
def CafeTree.bl : CafeTree → ℚ
  | .leaf b _ => b
  | .node b _ _ => b

/-- Dot product of two equally long vectors, as the matrix-times-vector
accumulation loop of square_matrix_multiply. -/
def dotQ (xs ys : List ℚ) : ℚ := lsum (List.zipWith (· * ·) xs ys)

/-- Modelled from the spec (section 4.4): the Felsenstein pruning engine.
A leaf with observed count c has the indicator likelihood vector over sizes
0..maxsz (a count beyond maxsz leaves the vector identically zero, the
CountOutOfRange failure mode of the spec).  An internal node's vector is,
entry by entry, the product over children of the child transition matrix row
applied to the child vector.  Matrices come from the cache model at the
node's branch length with the sentinel death rate (every scenario sets
mu = -1); the returned list is the root vector over sizes 0..maxsz. -/
def compute_tree_likelihoods (lam : ℚ) (maxsz : ℕ) : CafeTree → List ℚ
  | .leaf _ c => (List.range (maxsz + 1)).map (fun s => if s = c then (1 : ℚ) else 0)
  | .node _ l r =>
      (List.range (maxsz + 1)).map (fun s =>
        dotQ (rowD (birthdeath_cache_get_matrixQ l.bl lam maxsz) s)
            (compute_tree_likelihoods lam maxsz l)
        * dotQ (rowD (birthdeath_cache_get_matrixQ r.bl lam maxsz) s)
            (compute_tree_likelihoods lam maxsz r))

/-- The tree ((A:1,B:1):1,(C:1,D:1):1) with leaf counts (5,10,2,6), the
family of the compute_likelihoods scenario. -/
def c3_family_5_10_2_6 : CafeTree :=
  .node 0 (.node 1 (.leaf 1 5) (.leaf 1 10)) (.node 1 (.leaf 1 2) (.leaf 1 6))

/-- The tree ((A:1,B:1):1,(C:1,D:1):1) with leaf counts (5,3,2,4), the family
actually driven through the engine by the compute_tree_likelihood test. -/
def c3_family_5_3_2_4 : CafeTree :=
  .node 0 (.node 1 (.leaf 1 5) (.leaf 1 3)) (.node 1 (.leaf 1 2) (.leaf 1 4))

/-- A phylogeny with named leaves and branch lengths, for the tree-distance
utilities.  The root's branch length is written as 0 (it is unused). -/
inductive NamedTree where
  | leaf (name : String) (bl : ℚ)
  | node (bl : ℚ) (l r : NamedTree)

/-- The list of (leaf name, distance from the root) pairs, left to right;
acc is the accumulated branch length from the root to the current subtree. -/
def leaf_depths (acc : ℚ) : NamedTree → List (String × ℚ)
  | .leaf n b => [(n, acc + b)]
  | .node b l r => leaf_depths (acc + b) l ++ leaf_depths (acc + b) r

/-- Modelled from the spec (section 8, scenario 1): the distance from the
root of the named leaf, the sum of the branch lengths on the path (0 when
the name does not occur). -/
def distance_from_root (t : NamedTree) (name : String) : ℚ :=
  ((leaf_depths 0 t).lookup name).getD 0

/-- Modelled from the spec (section 8, scenario 1): a tree is ultrametric
when every leaf lies at the same distance from the root. -/
def is_ultrametric (t : NamedTree) : Bool :=
  match (leaf_depths 0 t).map Prod.snd with
  | [] => true
  | d :: ds => ds.all (· == d)

/-- The tree (((chimp:6,human:6):81,(mouse:17,rat:17):70):6,dog:9). -/
def dog9_tree : NamedTree :=
  .node 0
    (.node 6 (.node 81 (.leaf "chimp" 6) (.leaf "human" 6))
             (.node 70 (.leaf "mouse" 17) (.leaf "rat" 17)))
    (.leaf "dog" 9)

/-- The same tree with dog:93 (the ultrametric variant of the test). -/
def dog93_tree : NamedTree :=
  .node 0
    (.node 6 (.node 81 (.leaf "chimp" 6) (.leaf "human" 6))
             (.node 70 (.leaf "mouse" 17) (.leaf "rat" 17)))
    (.leaf "dog" 93)

/-- The same tree with dog:92 (the almost-ultrametric variant of the test). -/
def dog92_tree : NamedTree :=
  .node 0
    (.node 6 (.node 81 (.leaf "chimp" 6) (.leaf "human" 6))
             (.node 70 (.leaf "mouse" 17) (.leaf "rat" 17)))
    (.leaf "dog" 92)

/-- Balanced product of f over the index interval a, a+1, ..., a+n-1.  The
first argument bounds the recursion depth; the value is the interval product
whenever n ≤ 2^d (theorem dcProd_spec), and the balanced shape keeps the
evaluation depth logarithmic in n. -/
def dcProd (f : ℕ → ℚ) : ℕ → ℕ → ℕ → ℚ
  | 0, a, n => if n = 0 then 1 else f a
  | d+1, a, n =>
      if n = 0 then 1
      else if n = 1 then f a
      else dcProd f d a (n / 2) * dcProd f d (a + n / 2) (n - n / 2)

/-- pois_q lam i is the factor lam / i of the Poisson probability mass
recurrence, so that the product of pois_q lam 1 .. pois_q lam k is
lam^k / k factorial. -/
def pois_q (lam : ℚ) (i : ℕ) : ℚ := lam / (i : ℚ)

/-- Balanced prefix-product sum: pois_S lam d a n is the sum over j < n of
the products pois_q lam a * ... * pois_q lam (a+j-1), evaluated by interval
splitting (sum left + product left * sum right) so that n can be large. -/
def pois_S (lam : ℚ) : ℕ → ℕ → ℕ → ℚ
  | 0, _, n => if n = 0 then 0 else 1
  | d+1, a, n =>
      if n = 0 then 0
      else if n = 1 then 1
      else pois_S lam d a (n / 2)
        + dcProd (pois_q lam) 40 a (n / 2) * pois_S lam d (a + n / 2) (n - n / 2)

/-- The unnormalized Poisson probability mass lam^k / k factorial, computed
as the balanced product of the recurrence factors (theorem pois_mass_eq links
it to the power-over-factorial formula of the spec). -/
def pois_mass (lam : ℚ) (k : ℕ) : ℚ := dcProd (pois_q lam) 40 1 k

/-- Modelled from the spec (section 4.7): the Poisson root-size prior with
rate lam, truncated to sizes 0..n-1 and renormalized.  Written over the
rationals: the factor exp(-lam) of the Poisson pmf cancels between numerator
and normalizer, leaving prior k = (lam^k/k!) / sum of lam^j/j! over j < n;
theorem poisson_prior_models_spec restates this with the exponential factor
over the reals.  The length n is FAMILYSIZEMAX = 1000 in the scenario. -/
def cafe_set_prior_rfsize_poisson_lambda (lam : ℚ) (n : ℕ) (k : ℕ) : ℚ :=
  pois_mass lam k / pois_S lam 40 1 n

/-! Error model (src/cafe/error_model.cpp).  This part of the source tree is
the implementation itself, so the definitions below are direct embeddings of
the C++ functions.  Files are modelled after tokenization: the reader and
writer of error_model.cpp exchange lines that the code itself splits into a
leading integer and a list of probability tokens, so a file is a structure
holding those fields; number formatting is not modelled. -/

/-- ASCII lowercasing of one character: std::tolower in the C locale maps
exactly the codepoints 65-90 to their +32 counterparts. -/
def lower_char (c : Char) : Char :=
  if 65 ≤ c.toNat ∧ c.toNat ≤ 90 then Char.ofNat (c.toNat + 32) else c

/-- Embedding of case_insensitive_equal of error_model.cpp: both strings are
lowercased character by character with std::tolower and compared. -/
def case_insensitive_equal (s1 s2 : String) : Bool :=
  s1.data.map lower_char == s2.data.map lower_char

/-- An error-model file after tokenization: the maxcnt header value, the
cntdiff range bounds, and the data rows, each a leading count with the list
of probability tokens of the line. -/
structure ErrorModelFile where
  maxcnt : ℕ
  fromdiff : ℤ
  todiff : ℤ
  rows : List (ℕ × List ℚ)

/-- The error matrix as a total function: entry (observed, true count); cells
never written remain 0, as the calloc-style allocation of the C code makes
them. -/
abbrev EMatrix := ℕ → ℕ → ℚ

/-- Point update of an error matrix. -/
def updE (m : EMatrix) (a b : ℕ) (v : ℚ) : EMatrix :=
  fun i j => if i = a ∧ j = b then v else m i j

/-- The ErrorStruct of error_model.h: size bound, the cntdiff range, and the
matrix with entry (i+j, j) the probability of measuring i+j when the true
count is j. -/
structure ErrorStruct where
  maxfamilysize : ℕ
  fromdiff : ℤ
  todiff : ℤ
  errormatrix : EMatrix

/-- The list of integers from a to b inclusive, the iteration space of the
for loops over the cntdiff range. -/
def intRange (a b : ℤ) : List ℤ :=
  (List.range (b + 1 - a).toNat).map (fun k => a + k)

/-- One pass of the body of the row-inheritance loop of operator>>: for every
offset i in the cntdiff range with 0 ≤ i+j ≤ maxfam, copy entry (i+j-1, j-1)
into entry (i+j, j). -/
def copy_prev_row (f t : ℤ) (maxfam j : ℕ) (m : EMatrix) : EMatrix :=
  (intRange f t).foldl (fun m i =>
    if 0 ≤ i + (j : ℤ) ∧ i + (j : ℤ) ≤ (maxfam : ℤ) then
      updE m (i + (j : ℤ)).toNat j (m ((i + (j : ℤ)).toNat - 1) (j - 1))
    else m) m

/-- Embedding of the missing-row inheritance loop of operator>> in
error_model.cpp (lines 171-180): while j is nonzero and below the row label
col1, copy the previous row.  The loop body increments the dead variable i
instead of j, so j never changes; the fuel argument makes that observable:
when the guard holds the loop consumes all fuel and returns none (the C
program never exits the loop). -/
def inherit_missing_rows (f t : ℤ) (maxfam : ℕ) :
    ℕ → ℕ → ℕ → EMatrix → Option EMatrix
  | 0, j, col1, m => if j ≠ 0 ∧ j < col1 then none else some m
  | fuel + 1, j, col1, m =>
      if j ≠ 0 ∧ j < col1 then
        inherit_missing_rows f t maxfam fuel j col1 (copy_prev_row f t maxfam j m)
      else some m

/-- Embedding of the row-storing loop of operator>>: the assert j == col1 of
the C code aborts when the loop runs with a mismatched label (modelled as
none); otherwise each in-range offset i receives the positionally matching
token of the line (atoi of a missing or malformed token reads as 0, hence the
getD default). -/
def store_row (f t : ℤ) (maxfam j col1 : ℕ) (vals : List ℚ) (m : EMatrix) :
    Option EMatrix :=
  if f ≤ t ∧ j ≠ col1 then none
  else some (((intRange f t).enum).foldl (fun m ki =>
    if 0 ≤ ki.2 + (j : ℤ) ∧ ki.2 + (j : ℤ) ≤ (maxfam : ℤ) then
      updE m (ki.2 + (j : ℤ)).toNat j (vals.getD ki.1 0)
    else m) m)

/-- Embedding of the line loop of operator>>: lines whose token count does
not match the cntdiff range are skipped; each accepted line first runs the
inheritance loop, then stores its probabilities at row j and increments j. -/
def read_rows (f t : ℤ) (maxfam : ℕ) :
    ℕ → ℕ → EMatrix → List (ℕ × List ℚ) → Option (ℕ × EMatrix)
  | _, j, m, [] => some (j, m)
  | fuel, j, m, (col1, vals) :: rest =>
      if (vals.length : ℤ) = t - f + 1 then
        (inherit_missing_rows f t maxfam fuel j col1 m).bind (fun m1 =>
          (store_row f t maxfam j col1 vals m1).bind (fun m2 =>
            read_rows f t maxfam fuel (j + 1) m2 rest))
      else read_rows f t maxfam fuel j m rest

/-- Embedding of the trailing-fill loop of operator>> (lines 193-201): while
j is nonzero and at most maxfamilysize, copy the previous row and increment
j.  This loop does increment j, so it runs at most steps times. -/
def fill_trailing (f t : ℤ) (maxfam : ℕ) : ℕ → ℕ → EMatrix → EMatrix
  | 0, _, m => m
  | steps + 1, j, m =>
      if j ≠ 0 ∧ j ≤ maxfam then
        fill_trailing f t maxfam steps (j + 1) (copy_prev_row f t maxfam j m)
      else m

/-- Embedding of operator>>(istream, ErrorStruct) of error_model.cpp: the
struct's preset maxfamilysize (range.max at the call site) is raised to the
file's maxcnt, the matrix starts all zero, the data rows are read in order,
and the trailing rows inherit the last read row.  The fuel only feeds the
inheritance loop, whose body never advances; every other loop is structural.
A result of none means the C program aborted (failed assert) or never
terminated (the inheritance loop). -/
def read_error_model (fuel preset : ℕ) (file : ErrorModelFile) : Option ErrorStruct :=
  let maxfam := max preset file.maxcnt
  (read_rows file.fromdiff file.todiff maxfam fuel 0 (fun _ _ => 0) file.rows).map
    (fun jm => ⟨maxfam, file.fromdiff, file.todiff,
      fill_trailing file.fromdiff file.todiff maxfam (maxfam + 1) jm.1 jm.2⟩)

/-- A concrete error-model file with an interior missing row: maxcnt 2,
cntdiff -1 0 1, rows for counts 0 and 2 but none for count 1. -/
def file_missing_row1 : ErrorModelFile :=
  ⟨2, -1, 1, [(0, [0, 8/10, 2/10]), (2, [2/10, 6/10, 2/10])]⟩

/-- The ErrorMeasure record of error estimation (error_model.h): model shape
flags, parameter counts, the size bound, the size distribution and the
pair-count matrix. -/
structure ErrorMeasure where
  b_symmetric : Bool
  b_peakzero : Bool
  model_parameter_number : ℕ
  model_parameter_diff : ℕ
  maxFamilySize : ℕ
  sizeDist : ℕ → ℝ
  pairs : ℕ → ℕ → ℤ

/-- Embedding of get_marginal_error_probability_epsilon of error_model.cpp:
the residual probability left after the model parameters, spread over the
sizes outside the modelled diff band. -/
noncomputable def get_marginal_error_probability_epsilon
    (em : ErrorMeasure) (p : ℕ → ℝ) : ℝ :=
  if em.b_symmetric then
    (1 - (p 0 + lsum ((List.range (em.model_parameter_number - 1)).map
        (fun i => 2 * p (i + 1)))))
      / ((em.maxFamilySize + 1 : ℝ) - (2 * em.model_parameter_diff + 1))
  else
    (1 - lsum ((List.range em.model_parameter_number).map p))
      / ((em.maxFamilySize + 1 : ℝ) - (2 * em.model_parameter_diff + 1))

/-- The peak-monotonicity violation tested by the b_peakzero block of
loglikelihood_pairs_from_double_measure: in the symmetric model the
parameters must be non-increasing from index 0; in the asymmetric model they
must be non-increasing moving away from the peak index
model_parameter_diff in both directions.  The proposition holds when some
adjacent pair violates that order, exactly when the C loops set skip. -/
def peak_violation (em : ErrorMeasure) (p : ℕ → ℝ) : Prop :=
  if em.b_symmetric then
    ∃ i, 1 ≤ i ∧ i < em.model_parameter_number ∧ p (i - 1) < p i
  else
    (∃ i, 1 ≤ i ∧ i ≤ em.model_parameter_diff ∧
      p (em.model_parameter_diff - i + 1) < p (em.model_parameter_diff - i))
    ∨ (∃ i, 1 ≤ i ∧ i ≤ em.model_parameter_diff ∧
      p (em.model_parameter_diff + i - 1) < p (em.model_parameter_diff + i))

/-- The rejection condition of loglikelihood_pairs_from_double_measure: the
first parameter loop sets skip when some parameter is negative, the epsilon
residual is negative, or the epsilon residual exceeds that parameter; the
second loop additionally rejects peak-monotonicity violations when
b_peakzero is set. -/
def pairs_rejected (em : ErrorMeasure) (p : ℕ → ℝ) : Prop :=
  (∃ i, i < em.model_parameter_number ∧
    (p i < 0 ∨ get_marginal_error_probability_epsilon em p < 0
      ∨ get_marginal_error_probability_epsilon em p > p i))
  ∨ (em.b_peakzero = true ∧ peak_violation em p)

/-- The pair-discordance probability of the accepted branch: entry (i,j) of
discord_prob_model, summing sizeDist k times the two error-matrix factors
(doubled off the diagonal). -/
noncomputable def discord_prob (em : ErrorMeasure) (E : ℕ → ℕ → ℝ) (i j : ℕ) : ℝ :=
  lsum ((List.range (em.maxFamilySize + 1)).map (fun k =>
    (if i = j then 1 else 2) * em.sizeDist k * E i k * E j k))

/-- The score accumulated by the accepted branch of
loglikelihood_pairs_from_double_measure: the pair-weighted log discordance
probabilities over the upper triangle (pairs entries equal to zero
contribute nothing), minus log(1 - prob00) with prob00 the both-measures-zero
probability.  E is the error matrix built from the parameter estimates by
cafe_shell_create_error_matrix_from_estimate, a function declared extern and
not part of the source tree, so it enters as an argument. -/
noncomputable def pairs_score (em : ErrorMeasure) (E : ℕ → ℕ → ℝ) : ℝ :=
  lsum ((List.range (em.maxFamilySize + 1)).map (fun i =>
    lsum ((List.range (em.maxFamilySize + 1 - i)).map (fun dj =>
      if em.pairs i (i + dj) = 0 then 0
      else (em.pairs i (i + dj) : ℝ) * Real.log (discord_prob em E i (i + dj))))))
  - Real.log (1 - lsum ((List.range (em.maxFamilySize + 1)).map (fun k =>
      em.sizeDist k * E 0 k * E 0 k)))

open Classical in
/-- Embedding of loglikelihood_pairs_from_double_measure of error_model.cpp
(the cost function handed to the simplex minimizer).  On a rejected
parameter vector the C code sets score = log(0), the IEEE negative infinity,
and returns -score, the positive infinity, without computing any likelihood
term; the extended reals carry that convention.  buildE stands for
cafe_shell_create_error_matrix_from_estimate (extern, not in the source
tree). -/
noncomputable def loglikelihood_pairs_from_double_measure
    (em : ErrorMeasure) (buildE : (ℕ → ℝ) → ℕ → ℕ → ℝ) (p : ℕ → ℝ) : EReal :=
  if pairs_rejected em p then ⊤
  else ((- pairs_score em (buildE p) : ℝ) : EReal)

/-- One line of a family count file: the family id and the per-species
counts (the description column plays no role in pair counting). -/
structure MeasureLine where
  id : String
  values : List ℕ

/-- The pair-count matrix as a total function with integer entries. -/
abbrev PairMatrix := ℕ → ℕ → ℤ

/-- Point update of a pair-count matrix. -/
def updP (m : PairMatrix) (a b : ℕ) (v : ℤ) : PairMatrix :=
  fun i j => if i = a ∧ j = b then v else m i j

/-- Embedding of the per-line counting loop of read_error_double_measure:
for every position the pair (first file count, second file count) is
tallied.  The C loop runs over the first line's positions; pairing the two
lists positionally models it for equally long lines (a shorter second line
would be an out-of-bounds read in C). -/
def count_pairs_line (m : PairMatrix) (v1 v2 : List ℕ) : PairMatrix :=
  (List.zip v1 v2).foldl (fun m ab => updP m ab.1 ab.2 (m ab.1 ab.2 + 1)) m

/-- Embedding of the line loop of read_error_double_measure: paired lines
must carry the same family id (otherwise the C code throws); unpaired
trailing lines of the first file are ignored, as the zip is. -/
def count_pairs : PairMatrix → List (MeasureLine × MeasureLine) →
    Except String PairMatrix
  | m, [] => .ok m
  | m, (l1, l2) :: rest =>
      if l1.id = l2.id then count_pairs (count_pairs_line m l1.values l2.values) rest
      else .error "ERROR: the family IDs in each line do not match between the two files"

/-- Embedding of the triangle-merging loop of read_error_double_measure
(lines 409-414): for every i ≤ maxFamilySize and j < i, entry (j,i) receives
the sum of both orders and entry (i,j) is zeroed. -/
def merge_pairs (maxF : ℕ) (P0 : PairMatrix) : PairMatrix :=
  (List.range (maxF + 1)).foldl (fun P i =>
    (List.range i).foldl (fun P j =>
      updP (updP P j i (P j i + P i j)) i j 0) P) P0

/-- Embedding of read_error_double_measure of error_model.cpp: count the
per-position pairs of the two files line by line, then merge the lower
triangle into the upper one. -/
def read_error_double_measure (lines1 lines2 : List MeasureLine) (maxF : ℕ) :
    Except String PairMatrix :=
  (count_pairs (fun _ _ => 0) (List.zip lines1 lines2)).map (merge_pairs maxF)

/-- Entry (i,j) of a pair-counting result, 0 when the read failed; gives the
claims a way to inspect the matrix behind the Except wrapper. -/
def pairsAt (r : Except String PairMatrix) (i j : ℕ) : ℤ :=
  match r with
  | .ok P => P i j
  | .error _ => 0

/-- The family state that set_error_matrix_from_file works on: the species
column names, the list of loaded error models keyed by their file name, and
the per-species model assignment (none where no model is attached).  M is
the type of a loaded model. -/
structure CafeFamilyModel (M : Type) where
  species : List String
  errors : List (String × M)
  error_ptr : List (Option M)

/-- Embedding of get_error_model of error_model.cpp: the first loaded error
model whose file name matches case-insensitively. -/
def get_error_model {M : Type} (fam : CafeFamilyModel M) (filename : String) :
    Option (String × M) :=
  fam.errors.find? (fun e => case_insensitive_equal e.1 filename)

/-- The species-search loop of init_error_ptr: the index of the first
species name matching case-insensitively. -/
def first_species_match : List String → String → Option ℕ
  | [], _ => none
  | s :: rest, q =>
      if case_insensitive_equal s q then some 0
      else (first_species_match rest q).map (· + 1)

/-- Embedding of init_error_ptr of error_model.cpp: the error_ptr array is
allocated (all none) when absent; a named species receives the model at the
first case-insensitive match, the -all form (empty species name) attaches
the model to every species.  (The parallel per-node pointer of the tree
mirrors error_ptr and is not modelled separately.) -/
def ensure_ptr {M : Type} (fam : CafeFamilyModel M) : List (Option M) :=
  if fam.error_ptr.isEmpty
    then List.replicate fam.species.length (none : Option M)
    else fam.error_ptr

/-- Embedding of the assignment part of init_error_ptr: a named species
receives the model at the first case-insensitive match, the -all form
(empty species name) attaches the model to every species. -/
def init_error_ptr {M : Type} (fam : CafeFamilyModel M) (m : M)
    (speciesname : String) : CafeFamilyModel M :=
  if speciesname ≠ "" then
    match first_species_match fam.species speciesname with
    | some i => { fam with error_ptr := (ensure_ptr fam).set i (some m) }
    | none => { fam with error_ptr := ensure_ptr fam }
  else { fam with error_ptr := (ensure_ptr fam).map (fun _ => some m) }

/-- Embedding of set_error_matrix_from_file of error_model.cpp: a model
already loaded under a case-insensitively equal file name is reused without
touching the file; otherwise the file is opened, parsed and validated (the
load argument stands for that ifstream-and-parse step, returning none for an
unreadable file, which the C code turns into an io_error), appended to the
error list, and attached. -/
def set_error_matrix_from_file {M : Type} (load : String → Option M)
    (fam : CafeFamilyModel M) (filename speciesname : String) :
    Except String (CafeFamilyModel M) :=
  match get_error_model fam filename with
  | some e => .ok (init_error_ptr fam e.2 speciesname)
  | none =>
      match load filename with
      | none => .error "io_error"
      | some m =>
          .ok (init_error_ptr
            { fam with errors := fam.errors ++ [(filename, m)] } m speciesname)

/-- Proof-auxiliary (not an embedding of program code): the per-individual
offspring distribution underlying the birth-death kernel: one individual
leaves 0 descendants with probability alpha and n+1 descendants with
probability (1-alpha)*(1-beta)*beta^n.  Row i of the kernel is its i-fold
convolution (theorem birthdeath_rate_conv), which yields entry-wise
non-negativity for any alpha, beta in [0,1]. -/
def geomStep (a b : ℝ) : ℕ → ℝ
  | 0 => a
  | n + 1 => (1 - a) * (1 - b) * b ^ n

/-- Proof-auxiliary: one term of the birth-death sum with the binomial
coefficients written as Nat.choose. -/
def bdTerm (a b : ℝ) (i j k : ℕ) : ℝ :=
  (Nat.choose i k : ℝ) * (Nat.choose (i + j - k - 1) (i - 1) : ℝ)
    * a ^ (i - k) * b ^ (j - k) * (1 - a - b) ^ k

/-! Helper lemmas about the numeric primitives. -/

theorem foldl_add_eq {K : Type} [AddMonoid K] (l : List K) :
    ∀ a : K, l.foldl (· + ·) a = a + l.sum := by
  induction l with
  | nil => intro a; simp
  | cons x l ih => intro a; simp [List.foldl_cons, ih, add_assoc]

theorem lsum_eq_sum {K : Type} [AddMonoid K] (l : List K) : lsum l = l.sum := by
  unfold lsum; rw [foldl_add_eq, zero_add]

theorem lsum_nonneg (l : List ℝ) (h : ∀ x ∈ l, 0 ≤ x) : 0 ≤ lsum l := by
  rw [lsum_eq_sum]; exact List.sum_nonneg h

theorem lsum_cast (l : List ℚ) : ((lsum l : ℚ) : ℝ) = lsum (l.map (fun q : ℚ => (q : ℝ))) := by
  rw [lsum_eq_sum, lsum_eq_sum]
  exact map_list_sum (Rat.castHom ℝ) l

theorem foldl_mul_eq {K : Type} [Monoid K] (g : ℕ → K) (l : List ℕ) :
    ∀ a : K, l.foldl (fun acc t => acc * g t) a = a * (l.map g).prod := by
  induction l with
  | nil => intro a; simp
  | cons x l ih => intro a; simp [List.foldl_cons, ih, mul_assoc]

theorem factK_eq_prod (K : Type) [Field K] (n : ℕ) :
    factK K n = ((List.range n).map (fun t : ℕ => ((t : K) + 1))).prod := by
  unfold factK; rw [foldl_mul_eq, one_mul]

theorem factK_succ (K : Type) [Field K] (k : ℕ) :
    factK K (k + 1) = factK K k * ((k : K) + 1) := by
  rw [factK_eq_prod, factK_eq_prod, List.range_succ, List.map_append, List.prod_append]
  simp

theorem factK_eq (K : Type) [Field K] (n : ℕ) :
    factK K n = (Nat.factorial n : K) := by
  induction n with
  | zero => simp [factK_eq_prod, Nat.factorial]
  | succ n ih =>
      rw [factK_succ, ih, Nat.factorial_succ]
      push_cast
      ring

theorem factK_pos (n : ℕ) : (0 : ℝ) < factK ℝ n := by
  rw [factK_eq]
  exact_mod_cast Nat.factorial_pos n

theorem chooseK_nonneg (n k : ℕ) : (0 : ℝ) ≤ chooseK ℝ n k := by
  unfold chooseK
  apply div_nonneg
  · rw [foldl_mul_eq, one_mul]
    apply List.prod_nonneg
    intro x hx
    obtain ⟨t, _, rfl⟩ := List.mem_map.mp hx
    positivity
  · exact le_of_lt (factK_pos k)

theorem chooseK_eq_choose (K : Type) [Field K] [CharZero K] (n k : ℕ)
    (h : k ≤ n) : chooseK K n k = (Nat.choose n k : K) := by
  induction k with
  | zero => simp [chooseK, factK_eq]
  | succ k ih =>
      have hk : k ≤ n := Nat.le_of_succ_le h
      have ihk := ih hk
      have hnum : (List.range (k + 1)).foldl (fun (acc : K) (t : ℕ) => acc * ((n - t : ℕ) : K)) 1
          = ((List.range k).foldl (fun (acc : K) (t : ℕ) => acc * ((n - t : ℕ) : K)) 1)
            * ((n - k : ℕ) : K) := by
        rw [foldl_mul_eq, foldl_mul_eq, List.range_succ, List.map_append,
          List.prod_append]
        simp [mul_assoc]
      have hchoose : (Nat.choose n (k + 1) : K) * ((k : K) + 1)
          = (Nat.choose n k : K) * ((n - k : ℕ) : K) := by
        have h2 : Nat.choose n (k + 1) * (k + 1) = Nat.choose n k * (n - k) :=
          Nat.choose_succ_right_eq n k
        calc (Nat.choose n (k + 1) : K) * ((k : K) + 1)
            = ((Nat.choose n (k + 1) * (k + 1) : ℕ) : K) := by push_cast; ring
          _ = ((Nat.choose n k * (n - k) : ℕ) : K) := by rw [h2]
          _ = (Nat.choose n k : K) * ((n - k : ℕ) : K) := by push_cast; ring
      have hfk : factK K k ≠ 0 := by
        rw [factK_eq]
        exact_mod_cast Nat.factorial_ne_zero k
      have hk1 : ((k : K) + 1) ≠ 0 := by
        have hcast : ((k + 1 : ℕ) : K) ≠ 0 := Nat.cast_ne_zero.mpr (Nat.succ_ne_zero k)
        push_cast at hcast
        exact hcast
      have hnumk : (List.range k).foldl (fun (acc : K) (t : ℕ) => acc * ((n - t : ℕ) : K)) 1
          = (Nat.choose n k : K) * factK K k := by
        have := (div_eq_iff hfk).mp ihk
        exact this
      unfold chooseK
      rw [hnum, factK_succ, hnumk, div_eq_iff (mul_ne_zero hfk hk1)]
      linear_combination factK K k * hchoose.symm

theorem foldl_mul_cast (gQ : ℕ → ℚ) (gR : ℕ → ℝ) (hg : ∀ t, ((gQ t : ℚ) : ℝ) = gR t)
    (l : List ℕ) : ∀ a : ℚ,
      ((l.foldl (fun (acc : ℚ) (t : ℕ) => acc * gQ t) a : ℚ) : ℝ)
        = l.foldl (fun (acc : ℝ) (t : ℕ) => acc * gR t) (a : ℝ) := by
  induction l with
  | nil => intro a; rfl
  | cons x l ih =>
      intro a
      simp only [List.foldl_cons]
      rw [← hg x, ← Rat.cast_mul, ih]

theorem factK_cast (n : ℕ) : ((factK ℚ n : ℚ) : ℝ) = factK ℝ n := by
  rw [factK_eq, factK_eq]
  push_cast
  rfl

theorem chooseK_cast (n k : ℕ) : ((chooseK ℚ n k : ℚ) : ℝ) = chooseK ℝ n k := by
  unfold chooseK
  rw [Rat.cast_div, factK_cast,
    foldl_mul_cast (fun t => ((n - t : ℕ) : ℚ)) (fun t => ((n - t : ℕ) : ℝ))
      (fun t => by push_cast; rfl)]
  norm_num

theorem birthdeath_rate_cast (a b : ℚ) (i j : ℕ) :
    ((birthdeath_rate ℚ a b i j : ℚ) : ℝ) = birthdeath_rate ℝ (a : ℝ) (b : ℝ) i j := by
  unfold birthdeath_rate
  by_cases hi : i = 0
  · by_cases hj : j = 0 <;> simp [hi, hj]
  · rw [if_neg hi, if_neg hi, lsum_cast, List.map_map]
    congr 1
    apply List.map_congr_left
    intro k _
    simp only [Function.comp_apply]
    push_cast [chooseK_cast]
    rfl

theorem getD_map_range {K : Type} (f : ℕ → K) (d : K) (n j : ℕ) (h : j < n) :
    ((List.range n).map f).getD j d = f j := by
  rw [List.getD_eq_getElem?_getD, List.getElem?_map, List.getElem?_range h]
  rfl

theorem rowD_birthdeath_matrix (K : Type) [Field K] (a b : K) (maxsz i : ℕ)
    (hi : i ≤ maxsz) :
    rowD (birthdeath_matrix K a b maxsz) i
      = (List.range (maxsz + 1)).map (fun j => birthdeath_rate K a b i j) := by
  unfold rowD birthdeath_matrix
  exact getD_map_range _ _ _ _ (Nat.lt_succ_of_le hi)

theorem entryD_birthdeath_matrix (K : Type) [Field K] (a b : K) (maxsz i j : ℕ)
    (hi : i ≤ maxsz) (hj : j ≤ maxsz) :
    entryD (birthdeath_matrix K a b maxsz) i j = birthdeath_rate K a b i j := by
  unfold entryD
  rw [show (birthdeath_matrix K a b maxsz).getD i [] = rowD (birthdeath_matrix K a b maxsz) i from rfl]
  rw [rowD_birthdeath_matrix K a b maxsz i hi]
  exact getD_map_range _ _ _ _ (Nat.lt_succ_of_le hj)

theorem entryD_identity_matrix (K : Type) [Field K] (n i j : ℕ)
    (hi : i < n) (hj : j < n) :
    entryD (identity_matrix K n) i j = if i = j then (1 : K) else 0 := by
  unfold entryD identity_matrix
  rw [show ((List.range n).map (fun i => (List.range n).map
      (fun j => if i = j then (1 : K) else 0))).getD i []
    = (List.range n).map (fun j => if i = j then (1 : K) else 0) from
      getD_map_range _ _ _ _ hi]
  exact getD_map_range _ _ _ _ hj

theorem compute_birthdeath_rates_sentinel (t lam : ℝ) (ht : t ≠ 0) (maxsz : ℕ) :
    compute_birthdeath_rates t lam (-1) maxsz
      = birthdeath_matrix ℝ (lam * t / (1 + lam * t)) (lam * t / (1 + lam * t)) maxsz := by
  unfold compute_birthdeath_rates
  simp [ht]

theorem birthdeath_rate_zero_row (K : Type) [Field K] (a b : K) (j : ℕ) :
    birthdeath_rate K a b 0 j = if j = 0 then 1 else 0 := by
  unfold birthdeath_rate
  simp

theorem birthdeath_rate_nonneg (a b : ℝ) (ha : 0 ≤ a) (hb : 0 ≤ b)
    (hab : a + b ≤ 1) (i j : ℕ) : 0 ≤ birthdeath_rate ℝ a b i j := by
  unfold birthdeath_rate
  split
  · split <;> norm_num
  · apply lsum_nonneg
    intro x hx
    obtain ⟨k, _, rfl⟩ := List.mem_map.mp hx
    have h1 : (0 : ℝ) ≤ 1 - a - b := by linarith
    have h2 := chooseK_nonneg i k
    have h3 := chooseK_nonneg (i + j - k - 1) (i - 1)
    positivity

/-! Non-negativity of the birth-death kernel.  The Bailey sum of
birthdeath_rate is shown equal to the i-fold convolution of the offspring
distribution geomStep (a hockey-stick and Pascal computation), so every
entry is non-negative whenever both kernel parameters lie in [0,1]; the
closing lemmas show the parameters of every branch of
compute_birthdeath_rates do for t >= 0, lam >= 0 and mu >= 0 or mu = -1. -/


theorem list_range_map_sum {M : Type} [AddCommMonoid M] (f : ℕ → M) (n : ℕ) :
    ((List.range n).map f).sum = ∑ k ∈ Finset.range n, f k := by
  induction n with
  | zero => simp
  | succ n ih =>
      rw [List.range_succ, List.map_append, List.sum_append, Finset.sum_range_succ, ih]
      simp

theorem chooseK_of_lt (K : Type) [Field K] (n k : ℕ) (h : n < k) :
    chooseK K n k = 0 := by
  unfold chooseK
  rw [foldl_mul_eq, one_mul]
  have hmem : (0 : K) ∈ (List.range k).map (fun t : ℕ => ((n - t : ℕ) : K)) := by
    apply List.mem_map.mpr
    exact ⟨n, List.mem_range.mpr h, by simp⟩
  rw [List.prod_eq_zero hmem]
  simp

theorem chooseK_eq_choose_all (K : Type) [Field K] [CharZero K] (n k : ℕ) :
    chooseK K n k = (Nat.choose n k : K) := by
  rcases le_or_lt k n with h | h
  · exact chooseK_eq_choose K n k h
  · rw [chooseK_of_lt K n k h, Nat.choose_eq_zero_of_lt h]
    simp

theorem hockey_stick (r : ℕ) : ∀ m : ℕ,
    ∑ n ∈ Finset.range m, Nat.choose (r + n) r = Nat.choose (r + m) (r + 1) := by
  intro m
  induction m with
  | zero =>
      rw [Finset.range_zero, Finset.sum_empty, Nat.add_zero,
        Nat.choose_eq_zero_of_lt (Nat.lt_succ_self r)]
  | succ m ih =>
      rw [Finset.sum_range_succ, ih, show r + (m + 1) = (r + m) + 1 from rfl,
        Nat.choose_succ_succ]
      exact Nat.add_comm _ _

theorem sum_triangle_comm {M : Type} [AddCommMonoid M] :
    ∀ (j : ℕ) (f : ℕ → ℕ → M),
    ∑ n ∈ Finset.range j, ∑ k ∈ Finset.range (j - n), f n k
      = ∑ k ∈ Finset.range j, ∑ n ∈ Finset.range (j - k), f n k := by
  intro j
  induction j with
  | zero => intro f; simp
  | succ j ih =>
      intro f
      have peel : ∀ (g : ℕ → ℕ → M),
          ∑ n ∈ Finset.range (j + 1), ∑ k ∈ Finset.range (j + 1 - n), g n k
            = (∑ n ∈ Finset.range j, ∑ k ∈ Finset.range (j - n), g n k)
              + ∑ n ∈ Finset.range (j + 1), g n (j - n) := by
        intro g
        have h1 : ∀ n ∈ Finset.range (j + 1),
            ∑ k ∈ Finset.range (j + 1 - n), g n k
              = (∑ k ∈ Finset.range (j - n), g n k) + g n (j - n) := by
          intro n hn
          have hn' : n ≤ j := Nat.lt_succ_iff.mp (Finset.mem_range.mp hn)
          rw [show j + 1 - n = (j - n) + 1 by omega, Finset.sum_range_succ]
        rw [Finset.sum_congr rfl h1, Finset.sum_add_distrib, Finset.sum_range_succ]
        simp
      have hR := peel (fun k n => f n k)
      simp only [] at hR
      rw [peel f, hR, ih f]
      congr 1
      rw [← Finset.sum_range_reflect (fun n => f n (j - n)) (j + 1)]
      apply Finset.sum_congr rfl
      intro k hk
      have hk' : k ≤ j := Nat.lt_succ_iff.mp (Finset.mem_range.mp hk)
      rw [show j + 1 - 1 - k = j - k by omega, show j - (j - k) = k by omega]

theorem geomStep_nonneg (a b : ℝ) (ha0 : 0 ≤ a) (ha1 : a ≤ 1) (hb0 : 0 ≤ b)
    (hb1 : b ≤ 1) (n : ℕ) : 0 ≤ geomStep a b n := by
  cases n with
  | zero => exact ha0
  | succ n =>
      have h1 : (0:ℝ) ≤ 1 - a := by linarith
      have h2 : (0:ℝ) ≤ 1 - b := by linarith
      exact mul_nonneg (mul_nonneg h1 h2) (pow_nonneg hb0 n)

theorem birthdeath_rate_eq_sum (a b : ℝ) (i j : ℕ) (hi : 1 ≤ i) :
    birthdeath_rate ℝ a b i j = ∑ k ∈ Finset.range (j + 1), bdTerm a b i j k := by
  unfold birthdeath_rate
  rw [if_neg (by omega)]
  rw [lsum_eq_sum, list_range_map_sum]
  have hsub : ∑ k ∈ Finset.range (min i j + 1),
        (chooseK ℝ i k * chooseK ℝ (i + j - k - 1) (i - 1)
          * a ^ (i - k) * b ^ (j - k) * (1 - a - b) ^ k)
      = ∑ k ∈ Finset.range (j + 1),
        (chooseK ℝ i k * chooseK ℝ (i + j - k - 1) (i - 1)
          * a ^ (i - k) * b ^ (j - k) * (1 - a - b) ^ k) := by
    apply Finset.sum_subset (Finset.range_subset.mpr (by omega))
    intro k hk hnk
    have h1 : k < j + 1 := Finset.mem_range.mp hk
    have h2 : ¬ k < min i j + 1 := fun hc => hnk (Finset.mem_range.mpr hc)
    rw [chooseK_of_lt ℝ i k (by omega)]
    ring
  rw [hsub]
  apply Finset.sum_congr rfl
  intro k _
  unfold bdTerm
  rw [chooseK_eq_choose_all, chooseK_eq_choose_all]

theorem choose_pow_shift (i k : ℕ) (a : ℝ) :
    (Nat.choose i k : ℝ) * a ^ (i - k) * a = (Nat.choose i k : ℝ) * a ^ (i + 1 - k) := by
  by_cases hki : k ≤ i
  · rw [mul_assoc, ← pow_succ, show i - k + 1 = i + 1 - k by omega]
  · rw [Nat.choose_eq_zero_of_lt (by omega)]
    simp

theorem birthdeath_rate_one (a b : ℝ) (j : ℕ) :
    birthdeath_rate ℝ a b 1 j = geomStep a b j := by
  rw [birthdeath_rate_eq_sum a b 1 j le_rfl]
  cases j with
  | zero =>
      rw [Finset.sum_range_one]
      unfold bdTerm geomStep
      norm_num
  | succ n =>
      rw [Finset.sum_range_succ', Finset.sum_range_succ']
      have htail : ∑ k ∈ Finset.range n, bdTerm a b 1 (n+1) (k + 1 + 1) = 0 := by
        apply Finset.sum_eq_zero
        intro k _
        unfold bdTerm
        rw [Nat.choose_eq_zero_of_lt (by omega)]
        ring
      have e0 : bdTerm a b 1 (n+1) 0 = a * b ^ (n+1) := by
        unfold bdTerm
        rw [show (1:ℕ) + (n+1) - 0 - 1 = n + 1 by omega]
        simp
      have e1 : bdTerm a b 1 (n+1) (0+1) = b ^ n * (1 - a - b) := by
        unfold bdTerm
        rw [show (1:ℕ) + (n+1) - (0+1) - 1 = n by omega, show (n+1) - (0+1) = n by omega,
          show (1:ℕ) - (0+1) = 0 by omega]
        simp
      rw [htail, e0, e1, zero_add]
      show b ^ n * (1 - a - b) + a * b ^ (n+1) = geomStep a b (n+1)
      rw [show geomStep a b (n+1) = (1 - a) * (1 - b) * b ^ n from rfl, pow_succ]
      ring

theorem birthdeath_rate_conv (a b : ℝ) (i j : ℕ) (hi : 1 ≤ i) :
    birthdeath_rate ℝ a b (i + 1) j
      = ∑ n ∈ Finset.range (j + 1), birthdeath_rate ℝ a b i (j - n) * geomStep a b n := by
  rcases Nat.eq_zero_or_pos j with rfl | hj
  · rw [Finset.sum_range_one]
    simp only [Nat.sub_zero]
    rw [birthdeath_rate_eq_sum a b (i + 1) 0 (by omega), birthdeath_rate_eq_sum a b i 0 hi,
      Finset.sum_range_one, Finset.sum_range_one]
    show bdTerm a b (i + 1) 0 0 = bdTerm a b i 0 0 * geomStep a b 0
    unfold bdTerm
    rw [show geomStep a b 0 = a from rfl]
    rw [show i + 1 + 0 - 0 - 1 = i by omega, show i + 1 - 1 = i by omega,
      show i + 0 - 0 - 1 = i - 1 by omega, show i + 1 - 0 = i + 1 by omega,
      show i - 0 = i by omega]
    rw [Nat.choose_self, Nat.choose_self, pow_succ]
    norm_num
  -- main case: 1 ≤ j
  have hA := Finset.sum_range_succ' (fun n => birthdeath_rate ℝ a b i (j - n) * geomStep a b n) j
  simp only [Nat.sub_zero] at hA
  have hB : ∑ n ∈ Finset.range j, birthdeath_rate ℝ a b i (j - (n + 1)) * geomStep a b (n + 1)
      = ∑ n ∈ Finset.range j, ∑ k ∈ Finset.range (j - n),
          bdTerm a b i (j - (n + 1)) k * ((1 - a) * (1 - b) * b ^ n) := by
    apply Finset.sum_congr rfl
    intro n hn
    have hnj : n < j := Finset.mem_range.mp hn
    rw [show geomStep a b (n + 1) = (1 - a) * (1 - b) * b ^ n from rfl,
      birthdeath_rate_eq_sum a b i (j - (n + 1)) hi,
      show j - (n + 1) + 1 = j - n by omega, Finset.sum_mul]
  have hC := sum_triangle_comm j
    (fun n k => bdTerm a b i (j - (n + 1)) k * ((1 - a) * (1 - b) * b ^ n))
  simp only [] at hC
  have hD : ∀ k ∈ Finset.range j,
      ∑ n ∈ Finset.range (j - k), bdTerm a b i (j - (n + 1)) k * ((1 - a) * (1 - b) * b ^ n)
        = (Nat.choose i k : ℝ) * (Nat.choose (i + j - k - 1) i : ℝ)
            * a ^ (i - k) * b ^ (j - 1 - k) * (1 - a - b) ^ k * ((1 - a) * (1 - b)) := by
    intro k hk
    have hkj : k < j := Finset.mem_range.mp hk
    have hstep : ∀ n ∈ Finset.range (j - k),
        bdTerm a b i (j - (n + 1)) k * ((1 - a) * (1 - b) * b ^ n)
          = (Nat.choose (i - 1 + (j - k - 1 - n)) (i - 1) : ℝ)
              * ((Nat.choose i k : ℝ) * a ^ (i - k) * b ^ (j - 1 - k) * (1 - a - b) ^ k
                * ((1 - a) * (1 - b))) := by
      intro n hn
      have hnk : n < j - k := Finset.mem_range.mp hn
      unfold bdTerm
      rw [show i + (j - (n + 1)) - k - 1 = i - 1 + (j - k - 1 - n) by omega,
        show j - (n + 1) - k = j - 1 - k - n by omega]
      have hb : b ^ (j - 1 - k - n) * b ^ n = b ^ (j - 1 - k) := by
        rw [← pow_add]
        congr 1
        omega
      linear_combination ((Nat.choose i k : ℝ)
        * (Nat.choose (i - 1 + (j - k - 1 - n)) (i - 1) : ℝ)
        * a ^ (i - k) * (1 - a - b) ^ k * ((1 - a) * (1 - b))) * hb
    rw [Finset.sum_congr rfl hstep, ← Finset.sum_mul]
    have hr := Finset.sum_range_reflect
      (fun n => (Nat.choose (i - 1 + n) (i - 1) : ℝ)) (j - k)
    simp only [] at hr
    have hsum : ∑ n ∈ Finset.range (j - k), (Nat.choose (i - 1 + (j - k - 1 - n)) (i - 1) : ℝ)
        = (Nat.choose (i + j - k - 1) i : ℝ) := by
      rw [hr, ← Nat.cast_sum, hockey_stick (i - 1) (j - k),
        show i - 1 + (j - k) = i + j - k - 1 by omega, show i - 1 + 1 = i by omega]
    rw [hsum]
    ring
  have hsplit : ∀ k ∈ Finset.range j,
      (Nat.choose i k : ℝ) * (Nat.choose (i + j - k - 1) i : ℝ)
          * a ^ (i - k) * b ^ (j - 1 - k) * (1 - a - b) ^ k * ((1 - a) * (1 - b))
        = (Nat.choose i k : ℝ) * (Nat.choose (i + j - k - 1) i : ℝ)
            * a ^ (i + 1 - k) * b ^ (j - k) * (1 - a - b) ^ k
          + (Nat.choose i k : ℝ) * (Nat.choose (i + j - k - 1) i : ℝ)
            * a ^ (i - k) * b ^ (j - 1 - k) * (1 - a - b) ^ (k + 1) := by
    intro k hk
    have hkj : k < j := Finset.mem_range.mp hk
    have hbshift : b ^ (j - 1 - k) * b = b ^ (j - k) := by
      rw [← pow_succ]
      congr 1
      omega
    have hcomb : (Nat.choose i k : ℝ) * (a ^ (i - k) * a) * (b ^ (j - 1 - k) * b)
        = (Nat.choose i k : ℝ) * a ^ (i + 1 - k) * b ^ (j - k) := by
      rw [hbshift]
      linear_combination (b ^ (j - k)) * choose_pow_shift i k a
    linear_combination ((Nat.choose (i + j - k - 1) i : ℝ) * (1 - a - b) ^ k) * hcomb
  have hu : birthdeath_rate ℝ a b i j * geomStep a b 0
      = ∑ k ∈ Finset.range (j + 1),
          (Nat.choose i k : ℝ) * (Nat.choose (i + j - k - 1) (i - 1) : ℝ)
            * a ^ (i + 1 - k) * b ^ (j - k) * (1 - a - b) ^ k := by
    rw [show geomStep a b 0 = a from rfl, birthdeath_rate_eq_sum a b i j hi, Finset.sum_mul]
    apply Finset.sum_congr rfl
    intro k _
    unfold bdTerm
    linear_combination ((Nat.choose (i + j - k - 1) (i - 1) : ℝ) * b ^ (j - k)
      * (1 - a - b) ^ k) * choose_pow_shift i k a
  have hp : ∀ k ∈ Finset.range j,
      (Nat.choose i k : ℝ) * (Nat.choose (i + j - k - 1) (i - 1) : ℝ)
          * a ^ (i + 1 - k) * b ^ (j - k) * (1 - a - b) ^ k
        + (Nat.choose i k : ℝ) * (Nat.choose (i + j - k - 1) i : ℝ)
          * a ^ (i + 1 - k) * b ^ (j - k) * (1 - a - b) ^ k
      = (Nat.choose i k : ℝ) * (Nat.choose (i + j - k) i : ℝ)
          * a ^ (i + 1 - k) * b ^ (j - k) * (1 - a - b) ^ k := by
    intro k hk
    have hkj : k < j := Finset.mem_range.mp hk
    have hpascal : Nat.choose (i + j - k) i
        = Nat.choose (i + j - k - 1) (i - 1) + Nat.choose (i + j - k - 1) i := by
      have h1 : i + j - k = (i + j - k - 1) + 1 := by omega
      have h2 : i = (i - 1) + 1 := by omega
      calc Nat.choose (i + j - k) i
          = Nat.choose ((i + j - k - 1) + 1) ((i - 1) + 1) := by rw [← h1, ← h2]
        _ = Nat.choose (i + j - k - 1) (i - 1) + Nat.choose (i + j - k - 1) ((i - 1) + 1) :=
            Nat.choose_succ_succ _ _
        _ = Nat.choose (i + j - k - 1) (i - 1) + Nat.choose (i + j - k - 1) i := by rw [← h2]
    have hcast : (Nat.choose (i + j - k) i : ℝ)
        = (Nat.choose (i + j - k - 1) (i - 1) : ℝ) + (Nat.choose (i + j - k - 1) i : ℝ) := by
      exact_mod_cast hpascal
    linear_combination (-((Nat.choose i k : ℝ) * a ^ (i + 1 - k) * b ^ (j - k)
      * (1 - a - b) ^ k)) * hcast
  have hg : ∀ k ∈ Finset.range j,
      bdTerm a b (i + 1) j (k + 1)
        = (Nat.choose i (k + 1) : ℝ) * (Nat.choose (i + j - (k + 1)) i : ℝ)
            * a ^ (i + 1 - (k + 1)) * b ^ (j - (k + 1)) * (1 - a - b) ^ (k + 1)
          + (Nat.choose i k : ℝ) * (Nat.choose (i + j - k - 1) i : ℝ)
            * a ^ (i - k) * b ^ (j - 1 - k) * (1 - a - b) ^ (k + 1) := by
    intro k hk
    have hkj : k < j := Finset.mem_range.mp hk
    unfold bdTerm
    rw [show i + 1 + j - (k + 1) - 1 = i + j - k - 1 by omega,
      show i + 1 - 1 = i by omega,
      show i + 1 - (k + 1) = i - k by omega,
      show j - (k + 1) = j - 1 - k by omega,
      show i + j - (k + 1) = i + j - k - 1 by omega]
    have hcast : ((i + 1).choose (k + 1) : ℝ)
        = (Nat.choose i k : ℝ) + (Nat.choose i (k + 1) : ℝ) := by
      exact_mod_cast Nat.choose_succ_succ i k
    linear_combination ((Nat.choose (i + j - k - 1) i : ℝ) * a ^ (i - k) * b ^ (j - 1 - k)
      * (1 - a - b) ^ (k + 1)) * hcast
  have hg0 : bdTerm a b (i + 1) j 0
      = (Nat.choose i 0 : ℝ) * (Nat.choose (i + j - 0) i : ℝ)
          * a ^ (i + 1 - 0) * b ^ (j - 0) * (1 - a - b) ^ 0 := by
    unfold bdTerm
    rw [show i + 1 + j - 0 - 1 = i + j - 0 by omega, show i + 1 - 1 = i by omega]
    norm_num
  have hpj : (Nat.choose i j : ℝ) * (Nat.choose (i + j - j) i : ℝ)
        * a ^ (i + 1 - j) * b ^ (j - j) * (1 - a - b) ^ j
      = (Nat.choose i j : ℝ) * (Nat.choose (i + j - j - 1) (i - 1) : ℝ)
        * a ^ (i + 1 - j) * b ^ (j - j) * (1 - a - b) ^ j := by
    rw [show i + j - j = i by omega, Nat.choose_self, Nat.choose_self]
  -- sum-level equations
  have e1 := birthdeath_rate_eq_sum a b (i + 1) j (by omega)
  have e2 := Finset.sum_range_succ' (fun k => bdTerm a b (i + 1) j k) j
  simp only [] at e2
  have e3 : ∑ k ∈ Finset.range j, bdTerm a b (i + 1) j (k + 1)
      = ∑ k ∈ Finset.range j,
          ((Nat.choose i (k + 1) : ℝ) * (Nat.choose (i + j - (k + 1)) i : ℝ)
            * a ^ (i + 1 - (k + 1)) * b ^ (j - (k + 1)) * (1 - a - b) ^ (k + 1)
          + (Nat.choose i k : ℝ) * (Nat.choose (i + j - k - 1) i : ℝ)
            * a ^ (i - k) * b ^ (j - 1 - k) * (1 - a - b) ^ (k + 1)) :=
    Finset.sum_congr rfl hg
  have e4 : ∑ k ∈ Finset.range j,
        ((Nat.choose i (k + 1) : ℝ) * (Nat.choose (i + j - (k + 1)) i : ℝ)
          * a ^ (i + 1 - (k + 1)) * b ^ (j - (k + 1)) * (1 - a - b) ^ (k + 1)
        + (Nat.choose i k : ℝ) * (Nat.choose (i + j - k - 1) i : ℝ)
          * a ^ (i - k) * b ^ (j - 1 - k) * (1 - a - b) ^ (k + 1))
      = (∑ k ∈ Finset.range j,
          (Nat.choose i (k + 1) : ℝ) * (Nat.choose (i + j - (k + 1)) i : ℝ)
            * a ^ (i + 1 - (k + 1)) * b ^ (j - (k + 1)) * (1 - a - b) ^ (k + 1))
        + ∑ k ∈ Finset.range j,
          (Nat.choose i k : ℝ) * (Nat.choose (i + j - k - 1) i : ℝ)
            * a ^ (i - k) * b ^ (j - 1 - k) * (1 - a - b) ^ (k + 1) :=
    Finset.sum_add_distrib
  have e6 := Finset.sum_range_succ' (fun k => (Nat.choose i k : ℝ)
    * (Nat.choose (i + j - k) i : ℝ) * a ^ (i + 1 - k) * b ^ (j - k) * (1 - a - b) ^ k) j
  simp only [] at e6
  have e7 := Finset.sum_range_succ (fun k => (Nat.choose i k : ℝ)
    * (Nat.choose (i + j - k) i : ℝ) * a ^ (i + 1 - k) * b ^ (j - k) * (1 - a - b) ^ k) j
  simp only [] at e7
  have e9 : ∑ k ∈ Finset.range j,
        ((Nat.choose i k : ℝ) * (Nat.choose (i + j - k - 1) (i - 1) : ℝ)
          * a ^ (i + 1 - k) * b ^ (j - k) * (1 - a - b) ^ k
        + (Nat.choose i k : ℝ) * (Nat.choose (i + j - k - 1) i : ℝ)
          * a ^ (i + 1 - k) * b ^ (j - k) * (1 - a - b) ^ k)
      = ∑ k ∈ Finset.range j, (Nat.choose i k : ℝ) * (Nat.choose (i + j - k) i : ℝ)
          * a ^ (i + 1 - k) * b ^ (j - k) * (1 - a - b) ^ k :=
    Finset.sum_congr rfl hp
  have e10 : ∑ k ∈ Finset.range j,
        ((Nat.choose i k : ℝ) * (Nat.choose (i + j - k - 1) (i - 1) : ℝ)
          * a ^ (i + 1 - k) * b ^ (j - k) * (1 - a - b) ^ k
        + (Nat.choose i k : ℝ) * (Nat.choose (i + j - k - 1) i : ℝ)
          * a ^ (i + 1 - k) * b ^ (j - k) * (1 - a - b) ^ k)
      = (∑ k ∈ Finset.range j, (Nat.choose i k : ℝ) * (Nat.choose (i + j - k - 1) (i - 1) : ℝ)
          * a ^ (i + 1 - k) * b ^ (j - k) * (1 - a - b) ^ k)
        + ∑ k ∈ Finset.range j, (Nat.choose i k : ℝ) * (Nat.choose (i + j - k - 1) i : ℝ)
          * a ^ (i + 1 - k) * b ^ (j - k) * (1 - a - b) ^ k :=
    Finset.sum_add_distrib
  have e14 : ∑ k ∈ Finset.range j,
        ∑ n ∈ Finset.range (j - k), bdTerm a b i (j - (n + 1)) k * ((1 - a) * (1 - b) * b ^ n)
      = ∑ k ∈ Finset.range j,
          (Nat.choose i k : ℝ) * (Nat.choose (i + j - k - 1) i : ℝ)
            * a ^ (i - k) * b ^ (j - 1 - k) * (1 - a - b) ^ k * ((1 - a) * (1 - b)) :=
    Finset.sum_congr rfl hD
  have e15 : ∑ k ∈ Finset.range j,
        (Nat.choose i k : ℝ) * (Nat.choose (i + j - k - 1) i : ℝ)
          * a ^ (i - k) * b ^ (j - 1 - k) * (1 - a - b) ^ k * ((1 - a) * (1 - b))
      = ∑ k ∈ Finset.range j,
          ((Nat.choose i k : ℝ) * (Nat.choose (i + j - k - 1) i : ℝ)
            * a ^ (i + 1 - k) * b ^ (j - k) * (1 - a - b) ^ k
          + (Nat.choose i k : ℝ) * (Nat.choose (i + j - k - 1) i : ℝ)
            * a ^ (i - k) * b ^ (j - 1 - k) * (1 - a - b) ^ (k + 1)) :=
    Finset.sum_congr rfl hsplit
  have e16 : ∑ k ∈ Finset.range j,
        ((Nat.choose i k : ℝ) * (Nat.choose (i + j - k - 1) i : ℝ)
          * a ^ (i + 1 - k) * b ^ (j - k) * (1 - a - b) ^ k
        + (Nat.choose i k : ℝ) * (Nat.choose (i + j - k - 1) i : ℝ)
          * a ^ (i - k) * b ^ (j - 1 - k) * (1 - a - b) ^ (k + 1))
      = (∑ k ∈ Finset.range j, (Nat.choose i k : ℝ) * (Nat.choose (i + j - k - 1) i : ℝ)
          * a ^ (i + 1 - k) * b ^ (j - k) * (1 - a - b) ^ k)
        + ∑ k ∈ Finset.range j, (Nat.choose i k : ℝ) * (Nat.choose (i + j - k - 1) i : ℝ)
          * a ^ (i - k) * b ^ (j - 1 - k) * (1 - a - b) ^ (k + 1) :=
    Finset.sum_add_distrib
  have e18 := Finset.sum_range_succ (fun k => (Nat.choose i k : ℝ)
    * (Nat.choose (i + j - k - 1) (i - 1) : ℝ) * a ^ (i + 1 - k) * b ^ (j - k)
    * (1 - a - b) ^ k) j
  simp only [] at e18
  linarith [hA, hB, hC, hu, hg0, hpj, e1, e2, e3, e4, e6, e7, e9, e10, e14, e15, e16, e18]

theorem birthdeath_rate_nonneg_box (a b : ℝ) (ha0 : 0 ≤ a) (ha1 : a ≤ 1)
    (hb0 : 0 ≤ b) (hb1 : b ≤ 1) : ∀ i j : ℕ, 0 ≤ birthdeath_rate ℝ a b i j := by
  intro i
  induction i with
  | zero =>
      intro j
      rw [birthdeath_rate_zero_row]
      split <;> norm_num
  | succ i ih =>
      intro j
      rcases Nat.eq_zero_or_pos i with rfl | hi
      · rw [birthdeath_rate_one]
        exact geomStep_nonneg a b ha0 ha1 hb0 hb1 j
      · rw [birthdeath_rate_conv a b i j hi]
        apply Finset.sum_nonneg
        intro n _
        exact mul_nonneg (ih (j - n)) (geomStep_nonneg a b ha0 ha1 hb0 hb1 n)

theorem equal_rates_alpha_bounds (t lam : ℝ) (ht : 0 ≤ t) (hlam : 0 ≤ lam) :
    0 ≤ lam * t / (1 + lam * t) ∧ lam * t / (1 + lam * t) ≤ 1 := by
  have hpos : (0 : ℝ) < 1 + lam * t := by nlinarith
  constructor
  · exact div_nonneg (mul_nonneg hlam ht) (le_of_lt hpos)
  · rw [div_le_one hpos]
    linarith

theorem unequal_rates_alpha_beta_bounds (t lam mu : ℝ) (ht : 0 < t) (hlam : 0 ≤ lam)
    (hmu : 0 ≤ mu) (hne : lam ≠ mu) :
    (0 ≤ mu * (Real.exp ((lam - mu) * t) - 1) / (lam * Real.exp ((lam - mu) * t) - mu)
      ∧ mu * (Real.exp ((lam - mu) * t) - 1) / (lam * Real.exp ((lam - mu) * t) - mu) ≤ 1)
    ∧ (0 ≤ lam * (Real.exp ((lam - mu) * t) - 1) / (lam * Real.exp ((lam - mu) * t) - mu)
      ∧ lam * (Real.exp ((lam - mu) * t) - 1) / (lam * Real.exp ((lam - mu) * t) - mu) ≤ 1) := by
  set E := Real.exp ((lam - mu) * t) with hE
  have hEpos : 0 < E := Real.exp_pos _
  rcases lt_or_gt_of_ne hne with hlt | hgt
  · -- lam < mu: E < 1 and the denominator is negative
    have hx : (lam - mu) * t < 0 := mul_neg_of_neg_of_pos (by linarith) ht
    have hE1 : E < 1 := by
      rw [hE]
      calc Real.exp ((lam - mu) * t) < Real.exp 0 := Real.exp_lt_exp.mpr hx
        _ = 1 := Real.exp_zero
    have hden : 0 < mu - lam * E := by nlinarith
    have hd1 : lam * E - mu ≠ 0 := by nlinarith
    have ha : mu * (E - 1) / (lam * E - mu) = mu * (1 - E) / (mu - lam * E) := by
      rw [div_eq_div_iff hd1 (ne_of_gt hden)]
      ring
    have hb : lam * (E - 1) / (lam * E - mu) = lam * (1 - E) / (mu - lam * E) := by
      rw [div_eq_div_iff hd1 (ne_of_gt hden)]
      ring
    rw [ha, hb]
    refine ⟨⟨?_, ?_⟩, ?_, ?_⟩
    · exact div_nonneg (mul_nonneg hmu (by linarith)) (le_of_lt hden)
    · rw [div_le_one hden]
      nlinarith
    · exact div_nonneg (mul_nonneg hlam (by linarith)) (le_of_lt hden)
    · rw [div_le_one hden]
      nlinarith
  · -- mu < lam: 1 ≤ E and the denominator is positive
    have hx : 0 ≤ (lam - mu) * t := mul_nonneg (by linarith) (le_of_lt ht)
    have hE1 : 1 ≤ E := by
      rw [hE]
      calc (1 : ℝ) = Real.exp 0 := Real.exp_zero.symm
        _ ≤ Real.exp ((lam - mu) * t) := Real.exp_le_exp.mpr hx
    have hden : 0 < lam * E - mu := by nlinarith
    refine ⟨⟨?_, ?_⟩, ?_, ?_⟩
    · exact div_nonneg (mul_nonneg hmu (by linarith)) (le_of_lt hden)
    · rw [div_le_one hden]
      nlinarith
    · exact div_nonneg (mul_nonneg hlam (by linarith)) (le_of_lt hden)
    · rw [div_le_one hden]
      nlinarith

/-! Theorems settling the claims. -/

/-- Claim C1: for max_size 20, t = 1, birth rate 0.01 and the death-rate
sentinel -1, the kernel matrix has P(1,0) = 0.0099, P(1,1) = 0.980296 and
P(1,2) = 0.0097059 within 1e-6 each; for max_size 140, t = 68.7105 and
birth rate 0.006335 with the sentinel it has P(5,5) = 0.19466 within 1e-4. -/
theorem C1_kernel_values :
    (|entryD (compute_birthdeath_rates 1 (1/100) (-1) 20) 1 0 - 99/10000| ≤ 1/1000000
      ∧ |entryD (compute_birthdeath_rates 1 (1/100) (-1) 20) 1 1 - 980296/1000000| ≤ 1/1000000
      ∧ |entryD (compute_birthdeath_rates 1 (1/100) (-1) 20) 1 2 - 97059/10000000| ≤ 1/1000000)
    ∧ |entryD (compute_birthdeath_rates (687105/10000) (6335/1000000) (-1) 140) 5 5
        - 19466/100000| ≤ 1/10000 := by
  have h20 : compute_birthdeath_rates 1 (1/100) (-1) 20
      = birthdeath_matrix ℝ ((1/101 : ℚ) : ℝ) ((1/101 : ℚ) : ℝ) 20 := by
    rw [compute_birthdeath_rates_sentinel 1 (1/100) (by norm_num) 20]
    norm_num
  have h140 : compute_birthdeath_rates (687105/10000) (6335/1000000) (-1) 140
      = birthdeath_matrix ℝ ((174112407/574112407 : ℚ) : ℝ)
          ((174112407/574112407 : ℚ) : ℝ) 140 := by
    rw [compute_birthdeath_rates_sentinel _ _ (by norm_num) 140]
    norm_num
  refine ⟨⟨?_, ?_, ?_⟩, ?_⟩
  · rw [h20, entryD_birthdeath_matrix ℝ _ _ 20 1 0 (by norm_num) (by norm_num),
      ← birthdeath_rate_cast]
    have hq : |birthdeath_rate ℚ (1/101) (1/101) 1 0 - 99/10000| ≤ 1/1000000 := by
      with_unfolding_all exact of_decide_eq_true rfl
    rw [show (99/10000 : ℝ) = ((99/10000 : ℚ) : ℝ) by norm_num,
      show (1/1000000 : ℝ) = ((1/1000000 : ℚ) : ℝ) by norm_num,
      ← Rat.cast_sub, ← Rat.cast_abs]
    exact Rat.cast_le.mpr hq
  · rw [h20, entryD_birthdeath_matrix ℝ _ _ 20 1 1 (by norm_num) (by norm_num),
      ← birthdeath_rate_cast]
    have hq : |birthdeath_rate ℚ (1/101) (1/101) 1 1 - 980296/1000000| ≤ 1/1000000 := by
      with_unfolding_all exact of_decide_eq_true rfl
    rw [show (980296/1000000 : ℝ) = ((980296/1000000 : ℚ) : ℝ) by norm_num,
      show (1/1000000 : ℝ) = ((1/1000000 : ℚ) : ℝ) by norm_num,
      ← Rat.cast_sub, ← Rat.cast_abs]
    exact Rat.cast_le.mpr hq
  · rw [h20, entryD_birthdeath_matrix ℝ _ _ 20 1 2 (by norm_num) (by norm_num),
      ← birthdeath_rate_cast]
    have hq : |birthdeath_rate ℚ (1/101) (1/101) 1 2 - 97059/10000000| ≤ 1/1000000 := by
      with_unfolding_all exact of_decide_eq_true rfl
    rw [show (97059/10000000 : ℝ) = ((97059/10000000 : ℚ) : ℝ) by norm_num,
      show (1/1000000 : ℝ) = ((1/1000000 : ℚ) : ℝ) by norm_num,
      ← Rat.cast_sub, ← Rat.cast_abs]
    exact Rat.cast_le.mpr hq
  · rw [h140, entryD_birthdeath_matrix ℝ _ _ 140 5 5 (by norm_num) (by norm_num),
      ← birthdeath_rate_cast]
    have hq : |birthdeath_rate ℚ (174112407/574112407) (174112407/574112407) 5 5
        - 19466/100000| ≤ 1/10000 := by
      with_unfolding_all exact of_decide_eq_true rfl
    rw [show ((19466/100000) : ℝ) = (((19466/100000) : ℚ) : ℝ) by norm_num,
      show ((1/10000) : ℝ) = (((1/10000) : ℚ) : ℝ) by norm_num,
      ← Rat.cast_sub, ← Rat.cast_abs]
    exact Rat.cast_le.mpr hq

/-- Claim C2, counterexample: at t = 1, birth rate 1, the death-rate
sentinel -1 and max_size 1, row 1 of the kernel matrix sums to 3/4, missing
1 by far more than the claimed 1e-9 tolerance (the matrix is truncated at
max_size and the escaping mass is lost). -/
theorem C2_row_sum_counterexample :
    ¬ (|lsum (rowD (compute_birthdeath_rates 1 1 (-1) 1) 1) - 1| ≤ 1/1000000000) := by
  have h : compute_birthdeath_rates 1 1 (-1) 1
      = birthdeath_matrix ℝ ((1/2 : ℚ) : ℝ) ((1/2 : ℚ) : ℝ) 1 := by
    rw [compute_birthdeath_rates_sentinel 1 1 (by norm_num) 1]
    norm_num
  rw [h, rowD_birthdeath_matrix ℝ _ _ 1 1 le_rfl]
  have hcast : lsum ((List.range 2).map
        (fun j => birthdeath_rate ℝ ((1/2 : ℚ) : ℝ) ((1/2 : ℚ) : ℝ) 1 j))
      = ((lsum ((List.range 2).map (fun j => birthdeath_rate ℚ (1/2) (1/2) 1 j)) : ℚ) : ℝ) := by
    rw [lsum_cast, List.map_map]
    congr 1
    apply List.map_congr_left
    intro k _
    simp only [Function.comp_apply]
    rw [birthdeath_rate_cast]
  rw [hcast, not_le]
  have hq : (1/1000000000 : ℚ) < |lsum ((List.range 2).map
      (fun j => birthdeath_rate ℚ (1/2) (1/2) 1 j)) - 1| := by
    with_unfolding_all exact of_decide_eq_true rfl
  have hr : ((1/1000000000 : ℚ) : ℝ) < ((|lsum ((List.range 2).map
      (fun j => birthdeath_rate ℚ (1/2) (1/2) 1 j)) - 1| : ℚ) : ℝ) := Rat.cast_lt.mpr hq
  push_cast at hr
  exact hr

/-- Claim C2, amended: for every branch length t >= 0, birth rate lam >= 0
and death rate mu >= 0 or the sentinel -1, row 0 of the kernel matrix is the
absorbing extinction row (entry (0,0) is 1, the rest of row 0 is 0) and
every entry of the matrix is non-negative.  Only the row-sum clause of the
original claim fails: the matrix is truncated at max_size and the escaping
probability mass is lost (see the counterexample). -/
theorem C2_kernel_row0_and_nonnegativity (t lam mu : ℝ) (maxsz j : ℕ)
    (ht : 0 ≤ t) (hlam : 0 ≤ lam) (hmu : 0 ≤ mu ∨ mu = -1) (hj : j ≤ maxsz) :
    entryD (compute_birthdeath_rates t lam mu maxsz) 0 j = (if j = 0 then 1 else 0)
    ∧ ∀ i i' : ℕ, i ≤ maxsz → i' ≤ maxsz →
        0 ≤ entryD (compute_birthdeath_rates t lam mu maxsz) i i' := by
  unfold compute_birthdeath_rates
  by_cases ht0 : t = 0
  · simp only [if_pos ht0]
    constructor
    · rw [entryD_identity_matrix ℝ _ 0 j (Nat.succ_pos _) (Nat.lt_succ_of_le hj)]
      simp [eq_comm]
    · intro i i' hi hi'
      rw [entryD_identity_matrix ℝ _ i i' (Nat.lt_succ_of_le hi) (Nat.lt_succ_of_le hi')]
      split <;> norm_num
  · simp only [if_neg ht0]
    have htpos : 0 < t := lt_of_le_of_ne ht (Ne.symm ht0)
    by_cases heq : lam = (if mu = -1 then lam else mu)
    · simp only [if_pos heq]
      obtain ⟨ha0, ha1⟩ := equal_rates_alpha_bounds t lam ht hlam
      constructor
      · rw [entryD_birthdeath_matrix ℝ _ _ maxsz 0 j (Nat.zero_le _) hj,
          birthdeath_rate_zero_row]
      · intro i i' hi hi'
        rw [entryD_birthdeath_matrix ℝ _ _ maxsz i i' hi hi']
        exact birthdeath_rate_nonneg_box _ _ ha0 ha1 ha0 ha1 i i'
    · simp only [if_neg heq]
      have hm : mu ≠ -1 := by
        intro hm1
        apply heq
        rw [if_pos hm1]
      have hmu0 : 0 ≤ mu := hmu.resolve_right hm
      have hne : lam ≠ mu := by
        intro h
        apply heq
        rw [if_neg hm]
        exact h
      rw [if_neg hm]
      obtain ⟨⟨ha0, ha1⟩, hb0, hb1⟩ :=
        unequal_rates_alpha_beta_bounds t lam mu htpos hlam hmu0 hne
      constructor
      · rw [entryD_birthdeath_matrix ℝ _ _ maxsz 0 j (Nat.zero_le _) hj,
          birthdeath_rate_zero_row]
      · intro i i' hi hi'
        rw [entryD_birthdeath_matrix ℝ _ _ maxsz i i' hi hi']
        exact birthdeath_rate_nonneg_box _ _ ha0 ha1 hb0 hb1 i i'

/-- Witness for the amended claim C2 at t = 1, lam = 0.01, mu = -1,
max_size 2: entry (0,1) of the matrix is 0 and entry (1,2) is non-negative. -/
theorem C2_witness :
    entryD (compute_birthdeath_rates 1 (1/100) (-1) 2) 0 1 = 0
    ∧ 0 ≤ entryD (compute_birthdeath_rates 1 (1/100) (-1) 2) 1 2 := by
  obtain ⟨h1, h2⟩ := C2_kernel_row0_and_nonnegativity 1 (1/100) (-1) 2 1
    (by norm_num) (by norm_num) (Or.inr rfl) (by norm_num)
  refine ⟨?_, ?_⟩
  · rw [h1]
    norm_num
  · exact h2 1 2 (by norm_num) (by norm_num)

/-- Claim C4: two matrix-cache lookups whose branch lengths have the same
integer truncation return the same matrix, because the cache key is the
truncated branch length together with the two rates and the stored matrix is
computed from the truncated length. -/
theorem C4_cache_key_truncation (t1 t2 lam mu : ℝ) (maxsz : ℕ) (h : ⌊t1⌋ = ⌊t2⌋) :
    birthdeath_cache_get_matrix t1 lam mu maxsz
      = birthdeath_cache_get_matrix t2 lam mu maxsz := by
  unfold birthdeath_cache_get_matrix
  rw [h]

/-- Witness for claim C4 at the branch lengths 68.7105 and 68 of the test,
with lam = 0.006335 and the sentinel death rate. -/
theorem C4_witness :
    (⌊(687105/10000 : ℝ)⌋ = ⌊(68 : ℝ)⌋)
    ∧ birthdeath_cache_get_matrix (687105/10000) (6335/1000000) (-1) 140
      = birthdeath_cache_get_matrix 68 (6335/1000000) (-1) 140 := by
  have h : ⌊(687105/10000 : ℝ)⌋ = ⌊(68 : ℝ)⌋ := by
    have h1 : ⌊(687105/10000 : ℝ)⌋ = (68 : ℤ) := by
      rw [Int.floor_eq_iff]
      norm_num
    have h2 : ⌊(68 : ℝ)⌋ = (68 : ℤ) := by
      rw [Int.floor_eq_iff]
      norm_num
    rw [h1, h2]
  exact ⟨h, C4_cache_key_truncation _ _ _ _ _ h⟩

/-- Claim C9, counterexample: the tree
(((chimp:6,human:6):81,(mouse:17,rat:17):70):6,dog:9) is not ultrametric
(chimp lies at distance 93 from the root, dog at 9), so is_ultrametric does
not return true on it; the claim attaches the result of the dog:93 tree of
the test to the dog:9 tree. -/
theorem C9_ultrametric_counterexample : ¬ (is_ultrametric dog9_tree = true) := by
  with_unfolding_all exact of_decide_eq_true rfl

/-- Claim C9, amended: on the dog:9 tree the distances from the root are 93
for chimp, human, mouse and rat, and 9 for dog; is_ultrametric returns false
on it, true on the dog:93 variant and false on the dog:92 variant. -/
theorem C9_tree_distances_amended :
    distance_from_root dog9_tree "chimp" = 93
    ∧ distance_from_root dog9_tree "human" = 93
    ∧ distance_from_root dog9_tree "mouse" = 93
    ∧ distance_from_root dog9_tree "rat" = 93
    ∧ distance_from_root dog9_tree "dog" = 9
    ∧ is_ultrametric dog9_tree = false
    ∧ is_ultrametric dog93_tree = true
    ∧ is_ultrametric dog92_tree = false := by
  refine ⟨?_, ?_, ?_, ?_, ?_, ?_, ?_, ?_⟩ <;> with_unfolding_all exact of_decide_eq_true rfl

/-- Claim C3, counterexample: on the size range (0,7) of the engine test the
claim's family (5,10,2,6) contains the count 10 beyond max_size 7 (the
CountOutOfRange situation of the spec): the leaf vector for that count has
no support, the root vector is identically zero, and entry 1 misses the
claimed 1.42e-13 both absolutely (tolerance 1e-13) and relatively
(tolerance 10 percent).  The claimed values are those of the family
(5,3,2,4) driven through the engine by the cited test. -/
theorem C3_likelihood_counterexample :
    ¬ (|(compute_tree_likelihoods (1/100) 7 c3_family_5_10_2_6).getD 1 0
          - 142/1000000000000000| ≤ 1/10000000000000
      ∨ |(compute_tree_likelihoods (1/100) 7 c3_family_5_10_2_6).getD 1 0
          - 142/1000000000000000| ≤ (142/1000000000000000)/10) := by
  with_unfolding_all exact of_decide_eq_true rfl

/-- Claim C3, amended: for the tree ((A:1,B:1):1,(C:1,D:1):1) with birth
rate 0.01 and the sentinel death rate on the size range (0,7), the family
with leaf counts (5,3,2,4) has root likelihood vector beginning 0, 1.42e-13,
2.88e-9, 4.12e-7, 6.74e-7 at root sizes 0..4, each within 1e-13 absolute or
10 percent relative tolerance. -/
theorem C3_likelihood_amended :
    (compute_tree_likelihoods (1/100) 7 c3_family_5_3_2_4).getD 0 0 = 0
    ∧ (|(compute_tree_likelihoods (1/100) 7 c3_family_5_3_2_4).getD 1 0
          - 142/1000000000000000| ≤ 1/10000000000000
      ∨ |(compute_tree_likelihoods (1/100) 7 c3_family_5_3_2_4).getD 1 0
          - 142/1000000000000000| ≤ (142/1000000000000000)/10)
    ∧ (|(compute_tree_likelihoods (1/100) 7 c3_family_5_3_2_4).getD 2 0
          - 288/100000000000| ≤ 1/10000000000000
      ∨ |(compute_tree_likelihoods (1/100) 7 c3_family_5_3_2_4).getD 2 0
          - 288/100000000000| ≤ (288/100000000000)/10)
    ∧ (|(compute_tree_likelihoods (1/100) 7 c3_family_5_3_2_4).getD 3 0
          - 412/1000000000| ≤ 1/10000000000000
      ∨ |(compute_tree_likelihoods (1/100) 7 c3_family_5_3_2_4).getD 3 0
          - 412/1000000000| ≤ (412/1000000000)/10)
    ∧ (|(compute_tree_likelihoods (1/100) 7 c3_family_5_3_2_4).getD 4 0
          - 674/1000000000| ≤ 1/10000000000000
      ∨ |(compute_tree_likelihoods (1/100) 7 c3_family_5_3_2_4).getD 4 0
          - 674/1000000000| ≤ (674/1000000000)/10) := by
  refine ⟨?_, ?_, ?_, ?_, ?_⟩ <;> with_unfolding_all exact of_decide_eq_true rfl

/-! Lemmas characterizing the balanced Poisson computations. -/

theorem range_map_prod_add {K : Type} [CommMonoid K] (g : ℕ → K) (m : ℕ) :
    ∀ k : ℕ, ((List.range (m + k)).map g).prod
      = ((List.range m).map g).prod * ((List.range k).map (fun i => g (m + i))).prod := by
  intro k
  induction k with
  | zero => simp
  | succ k ih =>
      rw [show m + (k + 1) = (m + k) + 1 by omega, List.range_succ, List.range_succ]
      simp only [List.map_append, List.prod_append, List.map_cons, List.map_nil,
        List.prod_cons, List.prod_nil]
      rw [ih, mul_assoc]

theorem range_map_sum_add {K : Type} [AddCommMonoid K] (g : ℕ → K) (m : ℕ) :
    ∀ k : ℕ, ((List.range (m + k)).map g).sum
      = ((List.range m).map g).sum + ((List.range k).map (fun i => g (m + i))).sum := by
  intro k
  induction k with
  | zero => simp
  | succ k ih =>
      rw [show m + (k + 1) = (m + k) + 1 by omega, List.range_succ, List.range_succ]
      simp only [List.map_append, List.sum_append, List.map_cons, List.map_nil,
        List.sum_cons, List.sum_nil]
      rw [ih, add_assoc]

theorem dcProd_spec (f : ℕ → ℚ) : ∀ (d a n : ℕ), n ≤ 2 ^ d →
    dcProd f d a n = ((List.range n).map (fun i => f (a + i))).prod := by
  intro d
  induction d with
  | zero =>
      intro a n hn
      have hn1 : n ≤ 1 := by simpa using hn
      interval_cases n <;> simp [dcProd, List.range_succ]
  | succ d ih =>
      intro a n hn
      by_cases h0 : n = 0
      · simp [dcProd, h0]
      · by_cases h1 : n = 1
        · simp [dcProd, h0, h1, List.range_succ]
        · have hsplit : n = n / 2 + (n - n / 2) := by omega
          have hpow : 2 ^ (d + 1) = 2 ^ d + 2 ^ d := by ring
          have hh : n / 2 ≤ 2 ^ d := by omega
          have hk : n - n / 2 ≤ 2 ^ d := by omega
          rw [show dcProd f (d + 1) a n
              = dcProd f d a (n / 2) * dcProd f d (a + n / 2) (n - n / 2) by
            rw [dcProd, if_neg h0, if_neg h1]]
          rw [ih a (n / 2) hh, ih (a + n / 2) (n - n / 2) hk]
          conv_rhs => rw [hsplit, range_map_prod_add (fun i => f (a + i)) (n / 2) (n - n / 2)]
          congr 1
          apply congrArg List.prod
          apply List.map_congr_left
          intro i _
          congr 1
          omega

theorem pois_S_spec (lam : ℚ) : ∀ (d a n : ℕ), n ≤ 2 ^ d → d ≤ 40 →
    pois_S lam d a n = ((List.range n).map (fun j =>
      ((List.range j).map (fun i => pois_q lam (a + i))).prod)).sum := by
  intro d
  induction d with
  | zero =>
      intro a n hn _
      have hn1 : n ≤ 1 := by simpa using hn
      interval_cases n <;> simp [pois_S, List.range_succ]
  | succ d ih =>
      intro a n hn hd
      have hd' : d ≤ 40 := Nat.le_of_succ_le hd
      by_cases h0 : n = 0
      · simp [pois_S, h0]
      · by_cases h1 : n = 1
        · simp [pois_S, h0, h1, List.range_succ]
        · have hsplit : n = n / 2 + (n - n / 2) := by omega
          have hpow : 2 ^ (d + 1) = 2 ^ d + 2 ^ d := by ring
          have hh : n / 2 ≤ 2 ^ d := by omega
          have hk : n - n / 2 ≤ 2 ^ d := by omega
          have h40 : n / 2 ≤ 2 ^ 40 := by
            have hmono : (2 : ℕ) ^ (d + 1) ≤ 2 ^ 40 := Nat.pow_le_pow_right (by norm_num) hd
            omega
          have hterm : ∀ j : ℕ,
              ((List.range (n / 2 + j)).map (fun i => pois_q lam (a + i))).prod
                = ((List.range (n / 2)).map (fun i => pois_q lam (a + i))).prod
                  * ((List.range j).map (fun i => pois_q lam (a + n / 2 + i))).prod := by
            intro j
            rw [range_map_prod_add]
            congr 1
            apply congrArg List.prod
            apply List.map_congr_left
            intro i _
            congr 1
            omega
          rw [show pois_S lam (d + 1) a n
              = pois_S lam d a (n / 2)
                + dcProd (pois_q lam) 40 a (n / 2) * pois_S lam d (a + n / 2) (n - n / 2) by
            rw [pois_S, if_neg h0, if_neg h1]]
          rw [ih a (n / 2) hh hd', ih (a + n / 2) (n - n / 2) hk hd',
            dcProd_spec (pois_q lam) 40 a (n / 2) h40]
          conv_rhs => rw [hsplit, range_map_sum_add _ (n / 2) (n - n / 2)]
          congr 1
          have hmapeq : (List.range (n - n / 2)).map (fun j =>
                ((List.range (n / 2 + j)).map (fun i => pois_q lam (a + i))).prod)
              = (List.range (n - n / 2)).map (fun j =>
                ((List.range (n / 2)).map (fun i => pois_q lam (a + i))).prod
                  * ((List.range j).map (fun i => pois_q lam (a + n / 2 + i))).prod) := by
            apply List.map_congr_left
            intro j _
            exact hterm j
          rw [hmapeq]
          rw [List.sum_map_mul_left]

theorem pois_terms_prod (lam : ℚ) : ∀ k : ℕ,
    ((List.range k).map (fun i => pois_q lam (1 + i))).prod
      = lam ^ k / (Nat.factorial k : ℚ) := by
  intro k
  induction k with
  | zero => simp
  | succ k ih =>
      rw [List.range_succ, List.map_append, List.prod_append]
      simp only [List.map_cons, List.map_nil, List.prod_cons, List.prod_nil, mul_one]
      rw [ih]
      unfold pois_q
      have hfk : (Nat.factorial k : ℚ) ≠ 0 := by
        exact_mod_cast Nat.factorial_ne_zero k
      have hk1 : ((1 + k : ℕ) : ℚ) ≠ 0 := by
        have : 1 + k ≠ 0 := by omega
        exact_mod_cast this
      rw [Nat.factorial_succ]
      push_cast at hk1 ⊢
      field_simp
      ring

theorem pois_mass_eq (lam : ℚ) (k : ℕ) (hk : k ≤ 2 ^ 40) :
    pois_mass lam k = lam ^ k / (Nat.factorial k : ℚ) := by
  unfold pois_mass
  rw [dcProd_spec (pois_q lam) 40 1 k hk, pois_terms_prod]

theorem pois_S_eq (lam : ℚ) (n : ℕ) (hn : n ≤ 2 ^ 40) :
    pois_S lam 40 1 n
      = ((List.range n).map (fun j => lam ^ j / (Nat.factorial j : ℚ))).sum := by
  rw [pois_S_spec lam 40 1 n hn le_rfl]
  congr 1
  apply List.map_congr_left
  intro j _
  exact pois_terms_prod lam j

/-- The rational Poisson prior model restated with the exponential factor of
the spec formula over the reals: prior k is the renormalized truncated pmf
exp(-lam) * lam^k / k factorial. -/
theorem poisson_prior_models_spec (lam : ℚ) (n k : ℕ) (hk : k ≤ 2 ^ 40)
    (hn : n ≤ 2 ^ 40) :
    ((cafe_set_prior_rfsize_poisson_lambda lam n k : ℚ) : ℝ)
      = (Real.exp (-(lam : ℝ)) * (lam : ℝ) ^ k / (Nat.factorial k : ℝ))
        / ((List.range n).map (fun j =>
            Real.exp (-(lam : ℝ)) * (lam : ℝ) ^ j / (Nat.factorial j : ℝ))).sum := by
  unfold cafe_set_prior_rfsize_poisson_lambda
  rw [pois_mass_eq lam k hk, pois_S_eq lam n hn]
  have he : Real.exp (-(lam : ℝ)) ≠ 0 := Real.exp_ne_zero _
  have hfac : ∀ j : ℕ, Real.exp (-(lam : ℝ)) * (lam : ℝ) ^ j / (Nat.factorial j : ℝ)
      = Real.exp (-(lam : ℝ)) * ((lam : ℝ) ^ j / (Nat.factorial j : ℝ)) := by
    intro j
    ring
  calc ((lam ^ k / (Nat.factorial k : ℚ)
          / ((List.range n).map (fun j => lam ^ j / (Nat.factorial j : ℚ))).sum : ℚ) : ℝ)
      = ((lam : ℝ) ^ k / (Nat.factorial k : ℝ))
        / ((List.range n).map (fun j => (lam : ℝ) ^ j / (Nat.factorial j : ℝ))).sum := by
        push_cast
        congr 2
        rw [List.map_map]
        apply List.map_congr_left
        intro j _
        simp only [Function.comp_apply]
        push_cast
        rfl
    _ = (Real.exp (-(lam : ℝ)) * ((lam : ℝ) ^ k / (Nat.factorial k : ℝ)))
        / (Real.exp (-(lam : ℝ))
          * ((List.range n).map (fun j => (lam : ℝ) ^ j / (Nat.factorial j : ℝ))).sum) := by
        rw [mul_div_mul_left _ _ he]
    _ = (Real.exp (-(lam : ℝ)) * (lam : ℝ) ^ k / (Nat.factorial k : ℝ))
        / ((List.range n).map (fun j =>
            Real.exp (-(lam : ℝ)) * (lam : ℝ) ^ j / (Nat.factorial j : ℝ))).sum := by
        rw [← List.sum_map_mul_left]
        congr 1
        · rw [mul_div_assoc]
        · apply congrArg List.sum
          apply List.map_congr_left
          intro j _
          rw [mul_div_assoc]

/-- Claim C5: the Poisson root-size prior with rate 5.75 over sizes 0..999
has prior 1 = 0.018301, prior 2 = 0.052615 and prior 5 = 0.166711 within
1e-5 each, and prior 999 below 1e-9. -/
theorem C5_poisson_prior_values :
    |cafe_set_prior_rfsize_poisson_lambda (23/4) 1000 1 - 18301/1000000| ≤ 1/100000
    ∧ |cafe_set_prior_rfsize_poisson_lambda (23/4) 1000 2 - 52615/1000000| ≤ 1/100000
    ∧ |cafe_set_prior_rfsize_poisson_lambda (23/4) 1000 5 - 166711/1000000| ≤ 1/100000
    ∧ cafe_set_prior_rfsize_poisson_lambda (23/4) 1000 999 < 1/1000000000 := by
  refine ⟨?_, ?_, ?_, ?_⟩ <;> with_unfolding_all exact of_decide_eq_true rfl

/-! Helper lemmas for the error-model reader, the pair merge and the
error-model reuse path. -/

theorem inherit_missing_rows_diverges (f t : ℤ) (maxfam : ℕ) (fuel j col1 : ℕ)
    (m : EMatrix) (hj : j ≠ 0) (hcol : j < col1) :
    inherit_missing_rows f t maxfam fuel j col1 m = none := by
  induction fuel generalizing m with
  | zero =>
      rw [inherit_missing_rows, if_pos ⟨hj, hcol⟩]
  | succ fuel ih =>
      rw [inherit_missing_rows, if_pos ⟨hj, hcol⟩]
      exact ih _

theorem read_rows_file_missing_diverges (fuel : ℕ) (m : EMatrix) :
    read_rows (-1) 1 2 fuel 0 m [(0, [0, 8/10, 2/10]), (2, [2/10, 6/10, 2/10])] = none := by
  have hinherit0 : inherit_missing_rows (-1) 1 2 fuel 0 0 m = some m := by
    cases fuel with
    | zero => rfl
    | succ fuel => rfl
  obtain ⟨m1, hm1⟩ : ∃ m1, store_row (-1) 1 2 0 0 [0, 8/10, 2/10] m = some m1 := ⟨_, rfl⟩
  rw [read_rows]
  rw [if_pos (show ((([0, 8/10, 2/10] : List ℚ).length : ℤ) = 1 - (-1) + 1) by decide)]
  rw [hinherit0, Option.some_bind, hm1, Option.some_bind]
  show read_rows (-1) 1 2 fuel (0 + 1) m1 [(2, [2/10, 6/10, 2/10])] = none
  rw [read_rows]
  rw [if_pos (show ((([2/10, 6/10, 2/10] : List ℚ).length : ℤ) = 1 - (-1) + 1) by decide)]
  rw [inherit_missing_rows_diverges (-1) 1 2 fuel (0 + 1) 2 m1 (by decide) (by decide)]
  rfl

/-- Claim C6: the missing-row inheritance loop of operator>> never advances
its loop variable, so reading a file whose interior row 1 is absent (rows 0
and 2 present) fails to terminate for any amount of fuel: the read never
yields a structure, and the claimed canonicalizing read-write round trip
cannot happen for files with missing rows. -/
theorem C6_reader_missing_row_divergence :
    ∀ fuel : ℕ, read_error_model fuel 0 file_missing_row1 = none := by
  intro fuel
  simp only [read_error_model, Option.map_eq_none']
  exact read_rows_file_missing_diverges fuel _

/-- Claim C7: the replicate-measure objective returns +infinity whenever a
model parameter is negative, the epsilon residual is negative, or the
peak-zero flag is set and the parameters violate peak monotonicity; no
likelihood term is computed on that path. -/
theorem C7_objective_rejects_invalid (em : ErrorMeasure)
    (buildE : (ℕ → ℝ) → ℕ → ℕ → ℝ) (p : ℕ → ℝ)
    (hn : 0 < em.model_parameter_number)
    (h : (∃ i, i < em.model_parameter_number ∧ p i < 0)
        ∨ get_marginal_error_probability_epsilon em p < 0
        ∨ (em.b_peakzero = true ∧ peak_violation em p)) :
    loglikelihood_pairs_from_double_measure em buildE p = ⊤ := by
  have hrej : pairs_rejected em p := by
    rcases h with ⟨i, hi, hneg⟩ | heps | hpeak
    · exact Or.inl ⟨i, hi, Or.inl hneg⟩
    · exact Or.inl ⟨0, hn, Or.inr (Or.inl heps)⟩
    · exact Or.inr hpeak
  unfold loglikelihood_pairs_from_double_measure
  rw [if_pos hrej]

/-- An ErrorMeasure with one symmetric parameter and size bound 0, for
exercising the rejection path on a concrete input. -/
def c7_em : ErrorMeasure :=
  ⟨true, false, 1, 0, 0, fun _ => 0, fun _ _ => 0⟩

/-- Witness for claim C7: a parameter vector with p 0 = -1 is rejected. -/
theorem C7_witness :
    loglikelihood_pairs_from_double_measure c7_em (fun _ _ _ => 0) (fun _ => -1) = ⊤ :=
  C7_objective_rejects_invalid c7_em (fun _ _ _ => 0) (fun _ => -1)
    (by decide) (Or.inl ⟨0, by decide, by norm_num⟩)

theorem merge_inner_char (i : ℕ) (Q : PairMatrix) :
    ∀ (mm : ℕ), mm ≤ i → ∀ a b : ℕ,
      ((List.range mm).foldl (fun P j => updP (updP P j i (P j i + P i j)) i j 0) Q) a b
        = if b = i ∧ a < mm then Q a b + Q b a
          else if a = i ∧ b < mm then 0
          else Q a b := by
  intro mm
  induction mm with
  | zero =>
      intro _ a b
      simp
  | succ mm ih =>
      intro hmm a b
      have hmi : mm < i := hmm
      have hmm' : mm ≤ i := Nat.le_of_succ_le hmm
      rw [List.range_succ, List.foldl_append, List.foldl_cons, List.foldl_nil]
      set P' := (List.range mm).foldl (fun P j => updP (updP P j i (P j i + P i j)) i j 0) Q with hP'
      show updP (updP P' mm i (P' mm i + P' i mm)) i mm 0 a b
        = if b = i ∧ a < mm + 1 then Q a b + Q b a
          else if a = i ∧ b < mm + 1 then 0 else Q a b
      have hread1 : P' mm i = Q mm i := by
        rw [ih hmm' mm i,
          if_neg (show ¬ (i = i ∧ mm < mm) by omega),
          if_neg (show ¬ (mm = i ∧ i < mm) by omega)]
      have hread2 : P' i mm = Q i mm := by
        rw [ih hmm' i mm,
          if_neg (show ¬ (mm = i ∧ i < mm) by omega),
          if_neg (show ¬ (i = i ∧ mm < mm) by omega)]
      simp only [updP]
      rw [hread1, hread2, ih hmm' a b]
      by_cases hA : a = i ∧ b = mm
      · rw [hA.1, hA.2]
        rw [if_pos (show (i : ℕ) = i ∧ (mm : ℕ) = mm from ⟨rfl, rfl⟩)]
        rw [if_neg (show ¬ (mm = i ∧ i < mm + 1) by omega)]
        rw [if_pos (show (i : ℕ) = i ∧ mm < mm + 1 from ⟨rfl, by omega⟩)]
      · rw [if_neg hA]
        by_cases hB : a = mm ∧ b = i
        · rw [hB.1, hB.2]
          rw [if_pos (show (mm : ℕ) = mm ∧ (i : ℕ) = i from ⟨rfl, rfl⟩)]
          rw [if_pos (show (i : ℕ) = i ∧ mm < mm + 1 from ⟨rfl, by omega⟩)]
        · rw [if_neg hB]
          by_cases hC1 : b = i ∧ a < mm
          · rw [if_pos hC1, if_pos (show b = i ∧ a < mm + 1 from ⟨hC1.1, by omega⟩)]
          · rw [if_neg hC1]
            by_cases hC2 : a = i ∧ b < mm
            · rw [if_pos hC2, if_neg (show ¬ (b = i ∧ a < mm + 1) by omega),
                if_pos (show a = i ∧ b < mm + 1 from ⟨hC2.1, by omega⟩)]
            · rw [if_neg hC2, if_neg (show ¬ (b = i ∧ a < mm + 1) by omega),
                if_neg (show ¬ (a = i ∧ b < mm + 1) by omega)]

theorem merge_outer_char (P0 : PairMatrix) :
    ∀ (nn : ℕ) (a b : ℕ),
      ((List.range nn).foldl (fun P i =>
          (List.range i).foldl (fun P j => updP (updP P j i (P j i + P i j)) i j 0) P) P0) a b
        = if a < nn ∧ b < a then 0
          else if b < nn ∧ a < b then P0 a b + P0 b a
          else P0 a b := by
  intro nn
  induction nn with
  | zero =>
      intro a b
      simp
  | succ nn ih =>
      intro a b
      rw [List.range_succ, List.foldl_append, List.foldl_cons, List.foldl_nil]
      set P' := (List.range nn).foldl (fun P i =>
          (List.range i).foldl (fun P j => updP (updP P j i (P j i + P i j)) i j 0) P) P0 with hP'
      show ((List.range nn).foldl (fun P j => updP (updP P j nn (P j nn + P nn j)) nn j 0) P') a b
        = if a < nn + 1 ∧ b < a then 0
          else if b < nn + 1 ∧ a < b then P0 a b + P0 b a
          else P0 a b
      rw [merge_inner_char nn P' nn (le_refl nn) a b]
      by_cases hD1 : b = nn ∧ a < nn
      · have c1 : ¬ (a < nn ∧ nn < a) := by omega
        have c2 : ¬ (nn < nn ∧ a < nn) := by omega
        have e1 : P' a nn = P0 a nn := by rw [ih a nn, if_neg c1, if_neg c2]
        have e2 : P' nn a = P0 nn a := by rw [ih nn a, if_neg c2, if_neg c1]
        rw [hD1.1, if_pos (show (nn : ℕ) = nn ∧ a < nn from ⟨rfl, hD1.2⟩), e1, e2,
          if_neg (show ¬ (a < nn + 1 ∧ nn < a) by omega),
          if_pos (show nn < nn + 1 ∧ a < nn from ⟨by omega, hD1.2⟩)]
      · rw [if_neg hD1]
        by_cases hD2 : a = nn ∧ b < nn
        · rw [if_pos hD2, hD2.1,
            if_pos (show nn < nn + 1 ∧ b < nn from ⟨by omega, hD2.2⟩)]
        · rw [if_neg hD2, ih a b]
          by_cases hE1 : a < nn ∧ b < a
          · rw [if_pos hE1, if_pos (show a < nn + 1 ∧ b < a from ⟨by omega, hE1.2⟩)]
          · rw [if_neg hE1]
            by_cases hE2 : b < nn ∧ a < b
            · rw [if_pos hE2, if_neg (show ¬ (a < nn + 1 ∧ b < a) by omega),
                if_pos (show b < nn + 1 ∧ a < b from ⟨by omega, hE2.2⟩)]
            · rw [if_neg hE2, if_neg (show ¬ (a < nn + 1 ∧ b < a) by omega),
                if_neg (show ¬ (b < nn + 1 ∧ a < b) by omega)]

/-- Claim C8, counterexample: on two one-line files over a single species
with counts 1 and 2, the merged pair-count matrix is not symmetric: entry
(1,2) is 1 but entry (2,1) is 0, because the merge loop accumulates both
orders into the upper triangle and zeroes the lower one. -/
theorem C8_symmetry_counterexample :
    pairsAt (read_error_double_measure [⟨"fam1", [1]⟩] [⟨"fam1", [2]⟩] 2) 1 2
      ≠ pairsAt (read_error_double_measure [⟨"fam1", [1]⟩] [⟨"fam1", [2]⟩] 2) 2 1 := by
  with_unfolding_all exact of_decide_eq_true rfl

/-- Claim C8, amended: the merge loop of read_error_double_measure makes the
pair-count matrix upper triangular, not symmetric: for j < i ≤ maxFamilySize
the entry (i,j) below the diagonal is zeroed, the entry (j,i) above it
receives the sum of both orders, and the diagonal is preserved. -/
theorem C8_pairs_upper_triangular_amended (maxF : ℕ) (P0 : PairMatrix) (i j : ℕ)
    (hji : j < i) (hi : i ≤ maxF) :
    merge_pairs maxF P0 i j = 0
    ∧ merge_pairs maxF P0 j i = P0 j i + P0 i j
    ∧ merge_pairs maxF P0 i i = P0 i i := by
  unfold merge_pairs
  rw [merge_outer_char P0 (maxF + 1) i j, merge_outer_char P0 (maxF + 1) j i,
    merge_outer_char P0 (maxF + 1) i i]
  refine ⟨?_, ?_, ?_⟩
  · rw [if_pos (show i < maxF + 1 ∧ j < i from ⟨by omega, hji⟩)]
  · rw [if_neg (show ¬ (j < maxF + 1 ∧ i < j) by omega),
      if_pos (show i < maxF + 1 ∧ j < i from ⟨by omega, hji⟩)]
  · rw [if_neg (show ¬ (i < maxF + 1 ∧ i < i) by omega),
      if_neg (show ¬ (i < maxF + 1 ∧ i < i) by omega)]

/-- A concrete pair matrix with distinct off-diagonal entries. -/
def c8_P0 : PairMatrix := fun a b => (a : ℤ) + 2 * (b : ℤ)

/-- Witness for the amended claim C8 at maxFamilySize 3, i = 2, j = 1. -/
theorem C8_witness :
    merge_pairs 3 c8_P0 2 1 = 0
    ∧ merge_pairs 3 c8_P0 1 2 = c8_P0 1 2 + c8_P0 2 1
    ∧ merge_pairs 3 c8_P0 2 2 = c8_P0 2 2 :=
  C8_pairs_upper_triangular_amended 3 c8_P0 2 1 (by decide) (by decide)

theorem first_species_match_lt_length (q : String) :
    ∀ (l : List String) (i : ℕ), first_species_match l q = some i → i < l.length := by
  intro l
  induction l with
  | nil =>
      intro i h
      simp [first_species_match] at h
  | cons s rest ih =>
      intro i h
      rw [first_species_match] at h
      by_cases hc : case_insensitive_equal s q = true
      · rw [if_pos hc] at h
        injection h with h
        subst h
        simp
      · rw [if_neg hc] at h
        cases hm : first_species_match rest q with
        | none =>
            rw [hm] at h
            simp at h
        | some n =>
            rw [hm] at h
            simp only [Option.map_some'] at h
            injection h with h
            subst h
            have hlt := ih n hm
            simp only [List.length_cons]
            omega

theorem getD_set_self {A : Type} (d : A) :
    ∀ (l : List A) (i : ℕ) (v : A), i < l.length → (l.set i v).getD i d = v := by
  intro l
  induction l with
  | nil =>
      intro i v h
      simp at h
  | cons x rest ih =>
      intro i v h
      cases i with
      | zero => rfl
      | succ i => exact ih i v (by simpa using h)

theorem ensure_ptr_length {M : Type} (fam : CafeFamilyModel M)
    (hlen : fam.error_ptr.length = fam.species.length) :
    (ensure_ptr fam).length = fam.species.length := by
  unfold ensure_ptr
  by_cases he : fam.error_ptr.isEmpty = true
  · rw [if_pos he, List.length_replicate]
  · rw [if_neg he]
    exact hlen

/-- Claim C10: when the error list already holds a model under a file name
equal to the requested one up to letter case, set_error_matrix_from_file
reuses it: the call succeeds with init_error_ptr applied to the stored
model, the outcome does not depend on the file-loading function (the file is
not read), the error list is unchanged, and the requested species (the first
case-insensitive match of the species name) ends up pointing at the stored
model. -/
theorem C10_error_model_reuse {M : Type} (load1 load2 : String → Option M)
    (fam : CafeFamilyModel M) (filename speciesname : String) (e : String × M)
    (hfound : get_error_model fam filename = some e) :
    set_error_matrix_from_file load1 fam filename speciesname
        = Except.ok (init_error_ptr fam e.2 speciesname)
    ∧ set_error_matrix_from_file load1 fam filename speciesname
        = set_error_matrix_from_file load2 fam filename speciesname
    ∧ (init_error_ptr fam e.2 speciesname).errors = fam.errors
    ∧ (∀ i : ℕ, speciesname ≠ "" →
        first_species_match fam.species speciesname = some i →
        fam.error_ptr.length = fam.species.length →
        (init_error_ptr fam e.2 speciesname).error_ptr.getD i none = some e.2) := by
  have hset1 : set_error_matrix_from_file load1 fam filename speciesname
      = Except.ok (init_error_ptr fam e.2 speciesname) := by
    unfold set_error_matrix_from_file
    rw [hfound]
  have hset2 : set_error_matrix_from_file load2 fam filename speciesname
      = Except.ok (init_error_ptr fam e.2 speciesname) := by
    unfold set_error_matrix_from_file
    rw [hfound]
  refine ⟨hset1, hset1.trans hset2.symm, ?_, ?_⟩
  · unfold init_error_ptr
    by_cases hs : speciesname ≠ ""
    · rw [if_pos hs]
      cases first_species_match fam.species speciesname with
      | none => rfl
      | some i => rfl
    · rw [if_neg hs]
  · intro i hs hidx hlen
    unfold init_error_ptr
    rw [if_pos hs, hidx]
    have hlt : i < (ensure_ptr fam).length := by
      rw [ensure_ptr_length fam hlen]
      exact first_species_match_lt_length speciesname fam.species i hidx
    exact getD_set_self none (ensure_ptr fam) i (some e.2) hlt

/-- A family over two species with one loaded error model, keyed by a
mixed-case file name. -/
def c10_fam : CafeFamilyModel ℕ :=
  ⟨["Human", "chimp"], [("ErrMod.TXT", 7)], [none, none]⟩

/-- Witness for claim C10: looking the model up under the lowercased file
name reuses it whatever the loader would return, keeps the error list, and
attaches the model to species chimp (index 1, matched case-insensitively). -/
theorem C10_witness :
    set_error_matrix_from_file (fun _ => none) c10_fam "errmod.txt" "CHIMP"
        = set_error_matrix_from_file (fun _ => some 9) c10_fam "errmod.txt" "CHIMP"
    ∧ (init_error_ptr c10_fam 7 "CHIMP").errors = c10_fam.errors
    ∧ (init_error_ptr c10_fam 7 "CHIMP").error_ptr.getD 1 none = some 7 := by
  obtain ⟨-, h2, h3, h4⟩ := C10_error_model_reuse (fun _ => none) (fun _ => some 9)
    c10_fam "errmod.txt" "CHIMP" ("ErrMod.TXT", 7) (by decide)
  exact ⟨h2, h3, h4 1 (by decide) (by decide) rfl⟩

end CAFE
